import Mathlib

/-!
A verification development for the einsums dense-tensor library.

Numeric element types (float/double/complex) are modelled as exact rationals
(`ℚ`); machine `size_t` values are modelled as `ℕ`.  GPU kernels are modelled
for a single worker (`thread_id = 0`, `kernel_size = 1`), which covers the
whole iteration space of the strided loops.
-/

namespace Einsums

/-! ### Sentinel / stride machinery (GPU tensor algebra kernels)

`dims_to_strides` walks the extents from the last axis down, writing the
running product as the stride of each axis (the last axis has stride 1).
`sentinel_to_indices` divides successively by each precomputed stride and
keeps the remainder, in axis order, guarding against a zero stride. -/

/-- The downward loop of `dims_to_strides`: returns the list of strides
together with the running `stride` accumulator (the product of all extents
processed so far, i.e. of the whole list). -/
def dims_to_strides_go : List ℕ → List ℕ × ℕ
  | [] => ([], 1)
  | d :: ds =>
      let r := dims_to_strides_go ds
      (r.2 :: r.1, d * r.2)

/-- `dims_to_strides`: row-major strides for a list of axis extents. -/
def dims_to_strides (dims : List ℕ) : List ℕ :=
  (dims_to_strides_go dims).1

/-- The total extent `dims[0] * strides[0]` used by the host code as the
kernel's `max_index` (equals the product of all extents). -/
def total_extent (dims : List ℕ) : ℕ :=
  (dims_to_strides_go dims).2

/-- `sentinel_to_indices`: decompose a sentinel into per-axis indices by
successive division by each axis's stride (a zero stride yields index 0). -/
def sentinel_to_indices : List ℕ → ℕ → List ℕ
  | [], _ => []
  | s :: ss, hold =>
      if s ≠ 0 then hold / s :: sentinel_to_indices ss (hold % s)
      else 0 :: sentinel_to_indices ss hold

/-! ### The general contraction kernel `einsum_generic_algorithm_gpu`
(`src/unnamed/part_001`, lines 198-262), one worker. -/

/-- Flat offset of a tensor element: for each axis `i` of the tensor,
`stride[i] * Unique_index[table[i]]`, summed (the per-tensor sentinel
loops of the kernel). -/
def tensor_sentinel (stride table : List ℕ) (uniq : List ℕ) : ℕ :=
  ((stride.zip table).map (fun p => p.1 * uniq.getD p.2 0)).sum

/-- Phase 1, zero branch: `while (curr < bound) { make_zero(C[curr]); curr++ }`. -/
def set_c_zero_loop (C : List ℚ) (curr bound : ℕ) : List ℚ :=
  if curr < bound then set_c_zero_loop (C.set curr 0) (curr + 1) bound
  else C
termination_by bound - curr

/-- Phase 1, scale branch: `while (curr < bound) { C[curr] *= C_prefactor; curr++ }`. -/
def scale_c_loop (cPref : ℚ) (C : List ℚ) (curr bound : ℕ) : List ℚ :=
  if curr < bound then scale_c_loop cPref (C.set curr (C.getD curr 0 * cPref)) (curr + 1) bound
  else C
termination_by bound - curr

/-- Phase 2: `while (curr < maxIndex)` — decode the sentinel, compute the three
flat offsets through the index tables, and accumulate
`AB_prefactor * A[A_sentinel] * B[B_sentinel]` into `C[C_sentinel]`. -/
def contract_loop (uniqueStrides cTable aTable bTable cStride aStride bStride : List ℕ)
    (abPref : ℚ) (A B : List ℚ) (C : List ℚ) (curr maxIndex : ℕ) : List ℚ :=
  if curr < maxIndex then
    let uniq := sentinel_to_indices uniqueStrides curr
    let cS := tensor_sentinel cStride cTable uniq
    let aS := tensor_sentinel aStride aTable uniq
    let bS := tensor_sentinel bStride bTable uniq
    contract_loop uniqueStrides cTable aTable bTable cStride aStride bStride abPref A B
      (C.set cS (C.getD cS 0 + abPref * (A.getD aS 0 * B.getD bS 0))) (curr + 1) maxIndex
  else C
termination_by maxIndex - curr

/-- `einsum_generic_algorithm_gpu`, single worker: first zero or scale C over
its flat extent `C_dims[0] * C_stride[0]`, then contract over the unique-index
space `[0, maxIndex)`. -/
def einsum_generic_algorithm_gpu (uniqueStrides cTable aTable bTable : List ℕ)
    (cPref : ℚ) (C : List ℚ) (cDims cStride : List ℕ) (abPref : ℚ)
    (A : List ℚ) (aStride : List ℕ) (B : List ℚ) (bStride : List ℕ)
    (maxIndex : ℕ) : List ℚ :=
  let bound := cDims.getD 0 0 * cStride.getD 0 0
  let C1 := if cPref = 0 then set_c_zero_loop C 0 bound else scale_c_loop cPref C 0 bound
  contract_loop uniqueStrides cTable aTable bTable cStride aStride bStride abPref A B C1 0 maxIndex

/-- The host-side rank-zero branch of `einsum_generic_algorithm`
(`src/unnamed/part_001`, lines 429-433): `if (C_prefactor == 0) *C = 0; else *C *= C_prefactor;`. -/
def einsum_rank0_host_setup (cPref : ℚ) (c : ℚ) : ℚ :=
  if cPref = 0 then 0 else c * cPref

/-! ### The rank-zero reduction kernel `einsum_generic_zero_rank_gpu`
(`src/unnamed/part_001`, lines 267-311), one worker.

The accumulation loop `while (curr_index < max_index) { ...; work += A[..]*B[..]; }`
contains no `curr_index += kernel_size` statement (the general kernel's loop
does), so one iteration of the body leaves `curr_index` unchanged. -/

structure ZeroRankState where
  work : ℚ
  curr : ℕ
  deriving DecidableEq

/-- One iteration of the rank-zero kernel's accumulation loop body: decode the
sentinel, compute both flat offsets, add the product into the private slot.
`curr` is returned unchanged, exactly as in the source. -/
def zero_rank_step (uniqueStrides aTable bTable aStride bStride : List ℕ)
    (A B : List ℚ) (s : ZeroRankState) : ZeroRankState :=
  let uniq := sentinel_to_indices uniqueStrides s.curr
  let aS := tensor_sentinel aStride aTable uniq
  let bS := tensor_sentinel bStride bTable uniq
  { work := s.work + A.getD aS 0 * B.getD bS 0, curr := s.curr }

/-! ### Khatri-Rao product (`src/unnamed/part_001`, lines 450-505)

A tensor is modelled by its list of extents.  The sanity check compares, for
each common index position, A's extent against B's extent and throws at the
first mismatch ("Common dimensions for index {} of A and B do not match.",
naming the offending common index).  Only after the check passes is the
result tensor constructed; the second component of the result counts the
result-tensor allocations performed. -/

inductive KRError where
  /-- `std::runtime_error` naming the first common index whose extents differ. -/
  | commonDimMismatch (index : ℕ) : KRError
  deriving DecidableEq

/-- A device tensor, modelled by its extents. -/
structure DeviceTensor where
  dims : List ℕ
  deriving DecidableEq

/-- The `for_sequence` sanity-check loop over the common index positions
(`i` is the current position). -/
def common_dims_check (i : ℕ) : List ℕ → List ℕ → Except KRError Unit
  | [], _ => .ok ()
  | _, [] => .ok ()
  | a :: as_, b :: bs =>
      if a ≠ b then .error (.commonDimMismatch i)
      else common_dims_check (i + 1) as_ bs

/-- `khatri_rao`, dimension-level: check the common extents, then construct
the intermediate result tensor (`A_only ++ B_only ++ common` extents) and
reshape it to rank 2 (`rows × common-column`).  The second component counts
result-tensor allocations (0 when the check throws first). -/
def khatri_rao (aOnlyDims bOnlyDims aCommonDims bCommonDims : List ℕ) :
    Except KRError DeviceTensor × ℕ :=
  match common_dims_check 0 aCommonDims bCommonDims with
  | .error e => (.error e, 0)
  | .ok _ =>
      let resultDims := aOnlyDims ++ bOnlyDims ++ aCommonDims
      let result : DeviceTensor := ⟨resultDims⟩
      (.ok ⟨[(aOnlyDims ++ bOnlyDims).prod, aCommonDims.prod]⟩, 1 + 0 * result.dims.length)

/-! ### `CircularBuffer<T>` (`src/src/include/einsums/STL.hpp`, lines 313-367)

The backing store `new T[size]` starts uninitialized, modelled as `none`
entries. -/

structure CircularBuffer (α : Type) where
  buffer : List (Option α)
  maxSize : ℕ
  head : ℕ
  tail : ℕ
  full : Bool

/-- `CircularBuffer(size)`: fresh buffer with `_head = _tail = 0`, not full. -/
def CircularBuffer.create (α : Type) (size : ℕ) : CircularBuffer α :=
  ⟨List.replicate size none, size, 0, 0, false⟩

/-- `put(item)`: write at `_head`; if full, advance `_tail`; advance `_head`;
recompute `_full = (_head == _tail)`. -/
def CircularBuffer.put (b : CircularBuffer α) (item : α) : CircularBuffer α :=
  let buffer := b.buffer.set b.head (some item)
  let tail := if b.full then (b.tail + 1) % b.maxSize else b.tail
  let head := (b.head + 1) % b.maxSize
  { buffer := buffer, maxSize := b.maxSize, head := head, tail := tail,
    full := decide (head = tail) }

/-- `size()`: `_max_size` when full, else the distance from `_tail` to `_head`. -/
def CircularBuffer.size (b : CircularBuffer α) : ℕ :=
  if ¬ b.full then
    if b.head ≥ b.tail then b.head - b.tail else b.maxSize + b.head - b.tail
  else b.maxSize

/-- Successive `put` calls, oldest first. -/
def CircularBuffer.putAll (b : CircularBuffer α) (items : List α) : CircularBuffer α :=
  items.foldl CircularBuffer.put b

/-! ### Scheduler run-state and `scheduler_base::suspend`
(`src/libs/einsums/threading_base/include/einsums/threading_base/thread_data_stackful.hpp`,
lines 208-222)

The `einsums::runtime_state` enumeration itself is declared in a header not
present here; its constructors follow the state machine of the spec
(`initialized → running ⇄ sleeping ⇄ suspended → stopping → terminating`).
`suspend` stores `sleeping`, waits on the thread's condition variable (during
which other actors may rewrite the state), and on wake performs
`compare_exchange_strong(expected = sleeping, running)`. -/

inductive RuntimeState where
  | initialized
  | running
  | sleeping
  | suspended
  | stopping
  | terminating
  deriving DecidableEq

/-- The post-wake `compare_exchange_strong`: set `running` only if the state
is still `sleeping`, otherwise leave it untouched. -/
def suspend_post_wake (s : RuntimeState) : RuntimeState :=
  if s = .sleeping then .running else s

/-- The whole `suspend` protocol on one thread's state: the initial store
overwrites the state with `sleeping`; while the thread waits, the environment
(`interference`) may rewrite the state arbitrarily; on wake the
compare-exchange runs. -/
def suspend_protocol (interference : RuntimeState → RuntimeState)
    (_initial : RuntimeState) : RuntimeState :=
  suspend_post_wake (interference .sleeping)

/-! ### Runtime entry (`src/libs/Einsums/Runtime/src/InitRuntime.cpp`)

`detail::run(f, argc, argv, params, blocking)` (lines 93-141): in blocking
mode it returns `run(f, *rt, ...)` — the entry function's exit code; in
non-blocking mode it calls `run(f, *rt, ...)`, releases the `Runtime` pointer
to process-wide storage, and returns 0.  The `start` overloads (lines 180-199)
treat a non-zero result of `run_impl(..., false)` as unreachable. -/

/-- `run(f, rt, cfg, params)` (lines 80-91): run the entry function if one was
supplied, else run the runtime without an entry function (modelled as exit
code 0). -/
def runtime_run (f : Option (ℕ → ℤ)) (cfg : ℕ) : ℤ :=
  match f with
  | some f => f cfg
  | none => 0

/-- Outcome of `detail::run`: the returned exit code, whether the entry
function was invoked, and whether Runtime ownership was released to
process-wide storage. -/
structure RunOutcome where
  exitCode : ℤ
  entryInvoked : Bool
  runtimeReleased : Bool
  deriving DecidableEq

/-- `detail::run(f, argc, argv, params, blocking)` (lines 93-141). -/
def detail_run (f : Option (ℕ → ℤ)) (cfg : ℕ) (blocking : Bool) : RunOutcome :=
  if blocking then
    ⟨runtime_run f cfg, true, false⟩
  else
    let _discarded := runtime_run f cfg
    ⟨0, true, true⟩

/-- `detail::run_impl` (lines 143-157): registers handlers, then calls
`detail::run`. -/
def run_impl (f : Option (ℕ → ℤ)) (cfg : ℕ) (blocking : Bool) : RunOutcome :=
  detail_run f cfg blocking

/-- A `start` overload (lines 180-185): calls `run_impl(..., false)` and hits
`EINSUMS_UNREACHABLE` exactly when the result is non-zero.  Returns whether
the unreachable branch was taken. -/
def start_hits_unreachable (f : Option (ℕ → ℤ)) (cfg : ℕ) : Bool :=
  decide ((run_impl f cfg false).exitCode ≠ 0)

/-! ### CPU-affinity decoding (`src/libs/einsums/affinity/src/parse_affinity_options.cpp`)

The hardware topology is modelled as a list of sockets, each socket a list of
cores, each core its number of processing units; global PU numbers enumerate
the (core, pu) pairs lexicographically.  An affinity mask produced by
`init_thread_affinity_mask` covers a single PU, so masks are modelled as
`Option ℕ` (`none` = empty mask); `threads::detail::any(mask)` is `isSome`.
The process mask is a `Finset ℕ` of global PU numbers.

The unbounded `while (num_thread < num_threads)` loops are modelled with a
pass counter (fuel): a decoder returns `none` exactly when the C++ loop would
never terminate (each pass that assigns no thread leaves the pass either
unable to ever progress again, so the fuel `num_threads + 1` is exact). -/

namespace Affinity

structure Topology where
  sockets : List (List ℕ)
  deriving DecidableEq

/-- Number of PUs per core, in global core order. -/
def Topology.corePus (t : Topology) : List ℕ := t.sockets.flatten

def Topology.get_number_of_cores (t : Topology) : ℕ := t.corePus.length

def Topology.get_number_of_core_pus (t : Topology) (c : ℕ) : ℕ := t.corePus.getD c 0

/-- Global PU number of PU `p` of core `c` (lexicographic enumeration). -/
def Topology.get_pu_number (t : Topology) (c p : ℕ) : ℕ := (t.corePus.take c).sum + p

def Topology.hardware_concurrency (t : Topology) : ℕ := t.corePus.sum

def Topology.get_number_of_sockets (t : Topology) : ℕ := t.sockets.length

def Topology.get_number_of_socket_cores (t : Topology) (n : ℕ) : ℕ :=
  (t.sockets.getD n []).length

inductive AffError where
  /-- `failed to parse affinity specification: "{spec}"`. -/
  | unrecognizedSpec
  /-- `specified number of threads is larger than number of processing units`. -/
  | tooManyThreads
  /-- `affinity mask for thread {n} has already been set`. -/
  | alreadySet
  deriving DecidableEq

/-- `pu_in_process_mask` (lines 62-71): `true` unless `use_process_mask` is
set, in which case the PU's bit must be in the process mask. -/
def pu_in_process_mask (upm : Bool) (pm : Finset ℕ) (t : Topology) (c p : ℕ) : Bool :=
  if upm then decide (t.get_pu_number c p ∈ pm) else true

/-- `check_num_threads` (lines 73-94): fail when `num_threads` exceeds the
bit count of the process mask (if constrained) or `hardware_concurrency()`. -/
def check_num_threads (upm : Bool) (pm : Finset ℕ) (t : Topology) (numThreads : ℕ) :
    Except AffError Unit :=
  if upm then
    if numThreads > pm.card then .error .tooManyThreads else .ok ()
  else
    if numThreads > t.hardware_concurrency then .error .tooManyThreads else .ok ()

/-- The number of usable processing units `check_num_threads` compares against. -/
def usable_pus (upm : Bool) (pm : Finset ℕ) (t : Topology) : ℕ :=
  if upm then pm.card else t.hardware_concurrency

/-- `std::vector::resize`: keep the first `n` elements, pad with `d`. -/
def listResize (l : List α) (n : ℕ) (d : α) : List α :=
  l.take n ++ List.replicate (n - l.length) d

/-- Result of one pass of a decoder's inner loops: early `return` from the
whole decoder, a thrown error, or fall-through to the outer `while` check. -/
inductive PassResult (σ : Type) where
  | done (s : σ)
  | thrown (e : AffError)
  | cont (s : σ)

/-- The affinities / pu-number output arrays together with the running
`num_thread` counter. -/
structure AssignState where
  affs : List (Option ℕ)
  pus : List ℕ
  k : ℕ
  deriving DecidableEq

/-! #### compact (lines 97-132) -/

/-- The flattened `for (num_core) for (num_pu)` iteration space of
`decode_compact_distribution`: PU counts are read at `num_core + used_cores`. -/
def compact_pairs (t : Topology) (used_cores num_cores : ℕ) : List (ℕ × ℕ) :=
  (List.range num_cores).flatMap fun c =>
    (List.range (t.get_number_of_core_pus (c + used_cores))).map fun p => (c, p)

/-- One pass of the compact double loop: skip PUs outside the process mask
(checked at the local core index), throw if the current thread's mask is
already set, otherwise assign the PU at `num_core + used_cores` and advance. -/
def compact_pass (t : Topology) (upm : Bool) (pm : Finset ℕ) (used_cores N : ℕ) :
    List (ℕ × ℕ) → AssignState → PassResult AssignState
  | [], s => .cont s
  | (c, p) :: rest, s =>
      if ¬ pu_in_process_mask upm pm t c p then
        compact_pass t upm pm used_cores N rest s
      else if (s.affs.getD s.k none).isSome then .thrown .alreadySet
      else
        let g := t.get_pu_number (c + used_cores) p
        let s' : AssignState := ⟨s.affs.set s.k (some g), s.pus.set s.k g, s.k + 1⟩
        if s'.k = N then .done s'
        else compact_pass t upm pm used_cores N rest s'

/-- The outer `while (num_thread < num_threads)` of the compact decoder. -/
def compact_loop (t : Topology) (upm : Bool) (pm : Finset ℕ) (used_cores N : ℕ)
    (pairs : List (ℕ × ℕ)) : ℕ → AssignState → Option (Except AffError AssignState)
  | 0, _ => none
  | fuel + 1, s =>
      if s.k < N then
        match compact_pass t upm pm used_cores N pairs s with
        | .done s' => some (.ok s')
        | .thrown e => some (.error e)
        | .cont s' => compact_loop t upm pm used_cores N pairs fuel s'
      else some (.ok s)

/-- `decode_compact_distribution`. -/
def decode_compact_distribution (t : Topology) (upm : Bool) (pm : Finset ℕ)
    (used_cores max_cores : ℕ) (affs : List (Option ℕ)) (pus : List ℕ) :
    Option (Except AffError AssignState) :=
  let N := affs.length
  match check_num_threads upm pm t N with
  | .error e => some (.error e)
  | .ok _ =>
      let used_cores := if upm then 0 else used_cores
      let max_cores := if upm then t.get_number_of_cores else max_cores
      let num_cores := min max_cores t.get_number_of_cores
      let pus := listResize pus N 0
      compact_loop t upm pm used_cores N (compact_pairs t used_cores num_cores)
        (N + 1) ⟨affs, pus, 0⟩

/-! #### scatter (lines 134-184) -/

/-- The scan of `find_next_pu`, structured on the number `rem = n - pu_index`
of remaining slots. -/
def find_next_pu_go (elig : ℕ → Bool) : ℕ → ℕ → ℕ × Bool
  | pu_index, 0 => (pu_index, false)
  | pu_index, rem + 1 =>
      if elig pu_index then (pu_index + 1, true)
      else find_next_pu_go elig (pu_index + 1) rem

/-- The cursor-advancing `while (pu_index < num_core_pus)` search: scan from
`pu_index`, stopping just past the first eligible PU; returns the new cursor
and whether an eligible PU was found. -/
def find_next_pu (elig : ℕ → Bool) (pu_index n : ℕ) : ℕ × Bool :=
  find_next_pu_go elig pu_index (n - pu_index)

/-- Scatter decoder state: the per-core `next_pu_index` cursors on top of the
output arrays. -/
structure SState where
  affs : List (Option ℕ)
  pus : List ℕ
  cursors : List ℕ
  k : ℕ
  deriving DecidableEq

/-- One pass of the scatter core loop: check the current thread's mask, find
the next eligible PU of this core from its cursor (PU count read at the local
core index), store the cursor back, skip the core if nothing was found, else
assign the PU at `num_core + used_cores` and advance. -/
def scatter_pass (t : Topology) (upm : Bool) (pm : Finset ℕ) (used_cores N : ℕ) :
    List ℕ → SState → PassResult SState
  | [], s => .cont s
  | c :: rest, s =>
      if (s.affs.getD s.k none).isSome then .thrown .alreadySet
      else
        let n := t.get_number_of_core_pus c
        let r := find_next_pu (fun p => pu_in_process_mask upm pm t c p) (s.cursors.getD c 0) n
        let s₁ : SState := { s with cursors := s.cursors.set c r.1 }
        if ¬ r.2 then scatter_pass t upm pm used_cores N rest s₁
        else
          let g := t.get_pu_number (c + used_cores) (r.1 - 1)
          let s₂ : SState := ⟨s₁.affs.set s.k (some g), s₁.pus.set s.k g, s₁.cursors, s.k + 1⟩
          if s₂.k = N then .done s₂
          else scatter_pass t upm pm used_cores N rest s₂

/-- The outer `while (num_thread < num_threads)` of the scatter decoder. -/
def scatter_loop (t : Topology) (upm : Bool) (pm : Finset ℕ) (used_cores N : ℕ)
    (cores : List ℕ) : ℕ → SState → Option (Except AffError SState)
  | 0, _ => none
  | fuel + 1, s =>
      if s.k < N then
        match scatter_pass t upm pm used_cores N cores s with
        | .done s' => some (.ok s')
        | .thrown e => some (.error e)
        | .cont s' => scatter_loop t upm pm used_cores N cores fuel s'
      else some (.ok s)

/-- `decode_scatter_distribution`. -/
def decode_scatter_distribution (t : Topology) (upm : Bool) (pm : Finset ℕ)
    (used_cores max_cores : ℕ) (affs : List (Option ℕ)) (pus : List ℕ) :
    Option (Except AffError SState) :=
  let N := affs.length
  match check_num_threads upm pm t N with
  | .error e => some (.error e)
  | .ok _ =>
      let used_cores := if upm then 0 else used_cores
      let max_cores := if upm then t.get_number_of_cores else max_cores
      let num_cores := min max_cores t.get_number_of_cores
      let pus := listResize pus N 0
      scatter_loop t upm pm used_cores N (List.range num_cores) (N + 1)
        ⟨affs, pus, List.replicate num_cores 0, 0⟩

/-! #### balanced (lines 187-253) and the per-socket loops of numa-balanced -/

/-- Pre-pass state: per-core cursors, recorded PU slots (`pu_indexes`),
per-core counts (`num_pus_cores`) and the thread counter. -/
structure PrePassState where
  cursors : List ℕ
  puIdx : List (List ℕ)
  counts : List ℕ
  k : ℕ
  deriving DecidableEq

inductive PreResult where
  | done (s : PrePassState)
  | cont (s : PrePassState)

/-- One pass of the counting loop shared by `decode_balanced_distribution`
(lines 208-236) and the per-socket loop of `decode_numabalanced_distribution`
(lines 318-348): find the next eligible PU of each core from its cursor
(PU counts always read at the local core index, eligibility through `elig`),
record it in `pu_indexes`/`num_pus_cores`, and `break` when `N` threads have
been counted. -/
def prepass (npus : ℕ → ℕ) (elig : ℕ → ℕ → Bool) (N : ℕ) :
    List ℕ → PrePassState → PreResult
  | [], s => .cont s
  | c :: rest, s =>
      let r := find_next_pu (elig c) (s.cursors.getD c 0) (npus c)
      let s₁ : PrePassState := { s with cursors := s.cursors.set c r.1 }
      if ¬ r.2 then prepass npus elig N rest s₁
      else
        let s₂ : PrePassState :=
          ⟨s₁.cursors, s₁.puIdx.set c ((s₁.puIdx.getD c []) ++ [r.1 - 1]),
           s₁.counts.set c (s₁.counts.getD c 0 + 1), s.k + 1⟩
        if s₂.k = N then .done s₂
        else prepass npus elig N rest s₂

/-- The enclosing `while` of the counting loop. -/
def prepass_loop (npus : ℕ → ℕ) (elig : ℕ → ℕ → Bool) (N : ℕ) (cores : List ℕ) :
    ℕ → PrePassState → Option PrePassState
  | 0, _ => none
  | fuel + 1, s =>
      if s.k < N then
        match prepass npus elig N cores s with
        | .done s' => some s'
        | .cont s' => prepass_loop npus elig N cores fuel s'
      else some s

/-- The `for (num_core) for (num_pu < num_pus_cores[num_core])` assignment
pairs of the second balanced loop, in order. -/
def flush_pairs (counts : List ℕ) (puIdx : List (List ℕ)) (num_cores : ℕ) :
    List (ℕ × ℕ) :=
  (List.range num_cores).flatMap fun c =>
    (List.range (counts.getD c 0)).map fun j => (c, (puIdx.getD c []).getD j 0)

/-- The second balanced loop (lines 240-252 / 352-362): for each recorded
(core, pu slot) pair, throw if the thread's mask is already set, else write
the mask through `affPu` and the pu number through `pusPu` (the two differ in
the numa-balanced decoder). -/
def flush_assign (affPu pusPu : ℕ → ℕ → ℕ) :
    List (ℕ × ℕ) → AssignState → Except AffError AssignState
  | [], s => .ok s
  | (c, p) :: rest, s =>
      if (s.affs.getD s.k none).isSome then .error .alreadySet
      else flush_assign affPu pusPu rest
        ⟨s.affs.set s.k (some (affPu c p)), s.pus.set s.k (pusPu c p), s.k + 1⟩

/-- `decode_balanced_distribution`. -/
def decode_balanced_distribution (t : Topology) (upm : Bool) (pm : Finset ℕ)
    (used_cores max_cores : ℕ) (affs : List (Option ℕ)) (pus : List ℕ) :
    Option (Except AffError AssignState) :=
  let N := affs.length
  match check_num_threads upm pm t N with
  | .error e => some (.error e)
  | .ok _ =>
      let used_cores := if upm then 0 else used_cores
      let max_cores := if upm then t.get_number_of_cores else max_cores
      let num_cores := min max_cores t.get_number_of_cores
      let pus := listResize pus N 0
      let s0 : PrePassState :=
        ⟨List.replicate num_cores 0, List.replicate num_cores [],
         List.replicate num_cores 0, 0⟩
      match prepass_loop (fun c => t.get_number_of_core_pus c)
          (fun c p => pu_in_process_mask upm pm t c p) N (List.range num_cores)
          (N + 1) s0 with
      | none => none
      | some s1 =>
          match flush_assign (fun c p => t.get_pu_number (c + used_cores) p)
              (fun c p => t.get_pu_number (c + used_cores) p)
              (flush_pairs s1.counts s1.puIdx num_cores) ⟨affs, pus, 0⟩ with
          | .error e => some (.error e)
          | .ok s2 => some (.ok s2)

/-! #### numa-balanced (lines 256-365) -/

/-- `static_cast<std::size_t>(std::round(static_cast<double>(a) / static_cast<double>(b)))`
for naturals `a`, `b`: `⌊a/b + 1/2⌋` (for a non-negative argument
`std::round` rounds half away from zero, i.e. up), computed in exact
arithmetic as `(2a + b) / (2b)`; `cppRound_eq_floor` below proves the two
forms agree.  (For `b = 0` the C++ code divides by zero in `double`; the
model returns 0 there.) -/
def cppRound (a b : ℕ) : ℕ := (2 * a + b) / (2 * b)

/-- The per-socket thread-count loop (lines 295-306): for each socket,
`temp = round(num_threads * pus_socket[n] / pus_t)`, clamped so the running
total (`pus_t2`) never exceeds `num_threads`. -/
def numa_counts_go (N pus_t : ℕ) : List ℕ → ℕ → List ℕ
  | [], _ => []
  | s :: rest, total =>
      let temp := cppRound (N * s) pus_t
      let temp := if total + temp > N then N - total else temp
      temp :: numa_counts_go N pus_t rest (total + temp)

/-- `num_threads_socket` as computed by `decode_numabalanced_distribution`. -/
def numa_counts (N : ℕ) (pusSocket : List ℕ) (pus_t : ℕ) : List ℕ :=
  numa_counts_go N pus_t pusSocket 0

/-- Eligible-PU count of one socket (lines 281-288): cores are addressed at
`num_core + core_offset` both for their PU count and for eligibility. -/
def socket_elig_count (t : Topology) (upm : Bool) (pm : Finset ℕ)
    (core_offset ncores : ℕ) : ℕ :=
  ((List.range ncores).map fun c =>
    ((List.range (t.get_number_of_core_pus (c + core_offset))).filter
      (fun p => pu_in_process_mask upm pm t (c + core_offset) p)).length).sum

/-- `num_pus_socket` (lines 278-292): socket PU counts with the accumulating
core offset. -/
def numa_pus_sockets (t : Topology) (upm : Bool) (pm : Finset ℕ) :
    List ℕ → ℕ → List ℕ
  | [], _ => []
  | nc :: rest, core_offset =>
      socket_elig_count t upm pm core_offset nc ::
        numa_pus_sockets t upm pm rest (core_offset + nc)

/-- One socket of the numa-balanced assignment (lines 313-364): the counting
loop restricted to this socket's cores (PU counts read at the LOCAL core
index, line 322; eligibility at `num_core + core_offset`), followed by the
flush, whose mask uses `num_core + used_cores + core_offset` but whose
pu-number entry uses `num_core + used_cores` (line 358). -/
def numa_socket_step (t : Topology) (upm : Bool) (pm : Finset ℕ)
    (used_cores core_offset ncores Nsock : ℕ) (s : AssignState) :
    Option (Except AffError AssignState) :=
  let s0 : PrePassState :=
    ⟨List.replicate ncores 0, List.replicate ncores [], List.replicate ncores 0, 0⟩
  match prepass_loop (fun c => t.get_number_of_core_pus c)
      (fun c p => pu_in_process_mask upm pm t (c + core_offset) p) Nsock
      (List.range ncores) (Nsock + 1) s0 with
  | none => none
  | some s1 =>
      match flush_assign (fun c p => t.get_pu_number (c + used_cores + core_offset) p)
          (fun c p => t.get_pu_number (c + used_cores) p)
          (flush_pairs s1.counts s1.puIdx ncores) s with
      | .error e => some (.error e)
      | .ok s2 => some (.ok s2)

/-- The socket loop of the numa-balanced assignment, carrying `core_offset`. -/
def numa_sockets_loop (t : Topology) (upm : Bool) (pm : Finset ℕ) (used_cores : ℕ) :
    List (ℕ × ℕ) → ℕ → AssignState → Option (Except AffError AssignState)
  | [], _, s => some (.ok s)
  | (ncores, Nsock) :: rest, core_offset, s =>
      match numa_socket_step t upm pm used_cores core_offset ncores Nsock s with
      | none => none
      | some (.error e) => some (.error e)
      | some (.ok s') =>
          numa_sockets_loop t upm pm used_cores rest (core_offset + ncores) s'

/-- `decode_numabalanced_distribution`. -/
def decode_numabalanced_distribution (t : Topology) (upm : Bool) (pm : Finset ℕ)
    (used_cores : ℕ) (affs : List (Option ℕ)) (pus : List ℕ) :
    Option (Except AffError AssignState) :=
  let N := affs.length
  match check_num_threads upm pm t N with
  | .error e => some (.error e)
  | .ok _ =>
      let used_cores := if upm then 0 else used_cores
      let pus := listResize pus N 0
      let num_sockets := max 1 t.get_number_of_sockets
      let ncsList := (List.range num_sockets).map fun n => t.get_number_of_socket_cores n
      let pusSocket := numa_pus_sockets t upm pm ncsList 0
      let pus_t := pusSocket.sum
      let tcounts := numa_counts N pusSocket pus_t
      numa_sockets_loop t upm pm used_cores (ncsList.zip tcounts) 0 ⟨affs, pus, 0⟩

/-! #### `parse_mappings` / `decode_distribution` / `parse_affinity_options`
(lines 24-39, 368-392, 395-408) -/

inductive MappingsType where
  | compact
  | scatter
  | balanced
  | numa_balanced
  deriving DecidableEq

/-- `parse_mappings`: recognize exactly the four policy names. -/
def parse_mappings (spec : String) : Except AffError MappingsType :=
  if spec = "compact" then .ok .compact
  else if spec = "scatter" then .ok .scatter
  else if spec = "balanced" then .ok .balanced
  else if spec = "numa-balanced" then .ok .numa_balanced
  else .error .unrecognizedSpec

/-- `decode_distribution`: resize the affinities vector to `num_threads`
(empty masks are appended; prior entries are kept) and dispatch. -/
def decode_distribution (d : MappingsType) (t : Topology) (upm : Bool) (pm : Finset ℕ)
    (used_cores max_cores num_threads : ℕ) (affs : List (Option ℕ)) (pus : List ℕ) :
    Option (Except AffError AssignState) :=
  let affs := listResize affs num_threads none
  match d with
  | .compact => decode_compact_distribution t upm pm used_cores max_cores affs pus
  | .scatter =>
      match decode_scatter_distribution t upm pm used_cores max_cores affs pus with
      | none => none
      | some (.error e) => some (.error e)
      | some (.ok s) => some (.ok ⟨s.affs, s.pus, s.k⟩)
  | .balanced => decode_balanced_distribution t upm pm used_cores max_cores affs pus
  | .numa_balanced => decode_numabalanced_distribution t upm pm used_cores affs pus

/-- `parse_affinity_options`: parse the specification, then decode the
distribution over the current topology. -/
def parse_affinity_options (spec : String) (affs : List (Option ℕ))
    (used_cores max_cores num_threads : ℕ) (pus : List ℕ) (upm : Bool)
    (pm : Finset ℕ) (t : Topology) : Option (Except AffError AssignState) :=
  match parse_mappings spec with
  | .error e => some (.error e)
  | .ok d => decode_distribution d t upm pm used_cores max_cores num_threads affs pus

/-! #### Verification infrastructure for the affinity proofs (not part of
the source embedding) -/

/-- The (core, pu) pairs of a machine whose per-core PU counts are `L`, in
compact (lexicographic) order. -/
def pairsOf (L : List ℕ) : List (ℕ × ℕ) :=
  (List.range L.length).flatMap fun c => (List.range (L.getD c 0)).map fun p => (c, p)

/-- Eligible PU slots of core `c` strictly below its cursor — the slots the
scatter-style cursor logic has consumed so far on that core. -/
def eligBelow (elig : ℕ → ℕ → Bool) (cursors : List ℕ) (c : ℕ) : List ℕ :=
  (List.range (cursors.getD c 0)).filter (elig c)

/-- Number of eligible PUs of the whole machine. -/
def totalElig (t : Topology) (elig : ℕ → ℕ → Bool) : ℕ :=
  ((List.range t.get_number_of_cores).map
    (fun c => ((List.range (t.get_number_of_core_pus c)).filter (elig c)).length)).sum

/-- Invariant of the scatter decoder's state (with `used_cores = 0`):
output sizes, cursors in range, the unassigned tail still empty, assigned
masks exactly the eligible slots below the cursors (soundness/completeness/
distinctness), and the thread counter equal to the number of consumed slots. -/
def ScatterInv (t : Topology) (elig : ℕ → ℕ → Bool) (N : ℕ) (s : SState) : Prop :=
  s.affs.length = N ∧
  s.cursors.length = t.get_number_of_cores ∧
  s.k ≤ N ∧
  (∀ j, s.k ≤ j → s.affs.getD j none = none) ∧
  (∀ c, c < t.get_number_of_cores → s.cursors.getD c 0 ≤ t.get_number_of_core_pus c) ∧
  (∀ j, j < s.k → ∃ c p, c < t.get_number_of_cores ∧ p < s.cursors.getD c 0 ∧
    p < t.get_number_of_core_pus c ∧ elig c p = true ∧
    s.affs.getD j none = some (t.get_pu_number c p)) ∧
  (∀ c p, c < t.get_number_of_cores → p < s.cursors.getD c 0 → elig c p = true →
    ∃ j, j < s.k ∧ s.affs.getD j none = some (t.get_pu_number c p)) ∧
  (∀ j j', j < s.k → j' < s.k → j ≠ j' → s.affs.getD j none ≠ s.affs.getD j' none) ∧
  s.k = ((List.range t.get_number_of_cores).map
    (fun c => (eligBelow elig s.cursors c).length)).sum

/-- Invariant of the balanced/numa counting loop's state: sizes, cursors in
range, `pu_indexes[c]` exactly the eligible slots below core `c`'s cursor,
`num_pus_cores[c]` their count, and the thread counter their total. -/
def PreInv (t : Topology) (elig : ℕ → ℕ → Bool) (nc N : ℕ) (s : PrePassState) : Prop :=
  s.cursors.length = nc ∧
  s.puIdx.length = nc ∧
  s.counts.length = nc ∧
  s.k ≤ N ∧
  (∀ c, c < nc → s.cursors.getD c 0 ≤ t.get_number_of_core_pus c) ∧
  (∀ c, c < nc → s.puIdx.getD c [] = eligBelow elig s.cursors c) ∧
  (∀ c, c < nc → s.counts.getD c 0 = (s.puIdx.getD c []).length) ∧
  s.k = ((List.range nc).map (fun c => (eligBelow elig s.cursors c).length)).sum

/-- Modelled from the spec: the reporting behaviour of the
`EINSUMS_THROWS_IF` macro (its definition lives in the errors module, which
is not part of this excerpt) — when the caller supplied an explicit
error-code output parameter the failure is recorded in it, otherwise it is
raised as a terminating error. -/
inductive ErrorReport where
  | viaErrorCode (e : AffError)
  | raisedException (e : AffError)
  deriving DecidableEq

/-- Modelled from the spec: dispatch of a failure to the caller's error-code
output parameter when one is supplied, else to a terminating raise. -/
def report_failure (ecSupplied : Bool) (e : AffError) : ErrorReport :=
  if ecSupplied then .viaErrorCode e else .raisedException e

end Affinity

/-! ## Theorems -/

open Affinity

/-! ### Helper lemmas -/

theorem set_append_length (l1 : List α) (a : α) (l2 : List α) (v : α) :
    (l1 ++ a :: l2).set l1.length v = l1 ++ v :: l2 := by
  induction l1 with
  | nil => rfl
  | cons b l ih => simp [ih]

theorem dims_to_strides_go_snd (dims : List ℕ) :
    (dims_to_strides_go dims).2 = dims.prod := by
  induction dims with
  | nil => rfl
  | cons d ds ih => simp [dims_to_strides_go, ih]

theorem dims_to_strides_cons (d : ℕ) (ds : List ℕ) :
    dims_to_strides (d :: ds) = ds.prod :: dims_to_strides ds := by
  simp [dims_to_strides, dims_to_strides_go, dims_to_strides_go_snd]

/-! ### C5: sentinel/stride round trip -/

/-- C5: for positive axis extents and any sentinel `s` below the product of
the extents, decoding through the row-major strides of `dims_to_strides`
yields per-axis indices that are each within their axis extent and whose
stride-weighted sum reconstructs `s`, so each sentinel identifies a unique
point of the index space. -/
theorem sentinel_roundtrip (dims : List ℕ) (s : ℕ)
    (hpos : ∀ d ∈ dims, 0 < d) (hs : s < dims.prod) :
    (sentinel_to_indices (dims_to_strides dims) s).length = dims.length ∧
    (∀ i, i < dims.length →
      (sentinel_to_indices (dims_to_strides dims) s).getD i 0 < dims.getD i 0) ∧
    (((sentinel_to_indices (dims_to_strides dims) s).zip (dims_to_strides dims)).map
      (fun p => p.1 * p.2)).sum = s := by
  induction dims generalizing s with
  | nil =>
      simp only [List.prod_nil, Nat.lt_one_iff] at hs
      subst hs
      refine ⟨rfl, ?_, rfl⟩
      intro i hi
      simp at hi
  | cons d ds ih =>
      have hdpos : 0 < d := hpos d (by simp)
      have hpos' : ∀ x ∈ ds, 0 < x := fun x hx => hpos x (List.mem_cons_of_mem d hx)
      have hP : 0 < ds.prod := List.prod_pos hpos'
      have hsP : s % ds.prod < ds.prod := Nat.mod_lt _ hP
      obtain ⟨ihlen, ihbound, ihsum⟩ := ih (s % ds.prod) hpos' hsP
      rw [dims_to_strides_cons]
      have hguard : ds.prod ≠ 0 := Nat.pos_iff_ne_zero.mp hP
      simp only [sentinel_to_indices, if_pos hguard]
      refine ⟨by simp [ihlen], ?_, ?_⟩
      · intro i hi
        match i with
        | 0 =>
            simp only [List.getD_cons_zero]
            have : s < d * ds.prod := by simpa [List.prod_cons] using hs
            exact Nat.div_lt_of_lt_mul (by rwa [Nat.mul_comm] at this)
        | i + 1 =>
            simp only [List.getD_cons_succ]
            exact ihbound i (by simpa using hi)
      · simp only [List.zip_cons_cons, List.map_cons, List.sum_cons, ihsum]
        rw [Nat.mul_comm]
        exact Nat.div_add_mod s ds.prod

/-- Witness for `sentinel_roundtrip` at `dims = [3, 4, 5]`, `s = 37`. -/
theorem sentinel_roundtrip_witness :
    (∀ d ∈ [3, 4, 5], 0 < d) ∧ 37 < ([3, 4, 5] : List ℕ).prod ∧
    ((sentinel_to_indices (dims_to_strides [3, 4, 5]) 37).length = 3 ∧
      (∀ i, i < ([3, 4, 5] : List ℕ).length →
        (sentinel_to_indices (dims_to_strides [3, 4, 5]) 37).getD i 0 <
          ([3, 4, 5] : List ℕ).getD i 0) ∧
      (((sentinel_to_indices (dims_to_strides [3, 4, 5]) 37).zip
          (dims_to_strides [3, 4, 5])).map (fun p => p.1 * p.2)).sum = 37) :=
  ⟨by decide, by decide, sentinel_roundtrip [3, 4, 5] 37 (by decide) (by decide)⟩

/-! ### C10: non-blocking run always returns 0 -/

/-- C10: `detail::run` with `blocking == false` returns 0 for every entry
function (whose exit code is produced but discarded) and releases the
Runtime to process-wide storage, so the fatal/unreachable branch of the
`start` overloads is never taken. -/
theorem run_nonblocking_returns_zero :
    ∀ (f : Option (ℕ → ℤ)) (cfg : ℕ),
      (run_impl f cfg false).exitCode = 0 ∧
      (run_impl f cfg false).runtimeReleased = true ∧
      start_hits_unreachable f cfg = false := by
  intro f cfg
  refine ⟨rfl, rfl, ?_⟩
  simp [start_hits_unreachable, run_impl, detail_run]

/-! ### C9: suspend never downgrades an escalated state -/

/-- C9: the post-wake compare-exchange of `scheduler_base::suspend` restores
`running` only when the state is still `sleeping`; any state another actor
installed while the thread was suspended (e.g. `stopping` or `terminating`)
is preserved verbatim, never overwritten with `running`. -/
theorem suspend_preserves_escalated_state :
    ∀ (interference : RuntimeState → RuntimeState) (s0 : RuntimeState),
      suspend_protocol interference s0 =
        (if interference .sleeping = .sleeping then .running
         else interference .sleeping) := by
  intro f s0
  unfold suspend_protocol suspend_post_wake
  by_cases h : f .sleeping = .sleeping <;> simp [h]

/-! ### C4: the rank-zero kernel's accumulation loop -/

/-- C4 (code bug): the body of the rank-zero kernel's accumulation loop
leaves `curr_index` unchanged — the `curr_index += kernel_size` statement of
the general kernel is missing — so for worker 0 with `max_index = 1` the
guard stays true after every iteration and the private slot keeps growing:
the loop never terminates and never visits its partition exactly once. -/
theorem zero_rank_gpu_loop_diverges :
    (∀ (uS aT bT aStr bStr : List ℕ) (A B : List ℚ) (s : ZeroRankState),
      (zero_rank_step uS aT bT aStr bStr A B s).curr = s.curr) ∧
    ∀ n : ℕ,
      ((zero_rank_step [1] [0] [0] [1] [1] [1] [1])^[n] ⟨0, 0⟩).curr < 1 ∧
      ((zero_rank_step [1] [0] [0] [1] [1] [1] [1])^[n] ⟨0, 0⟩).work = n := by
  refine ⟨fun _ _ _ _ _ _ _ _ => rfl, ?_⟩
  have key : ∀ n : ℕ,
      ((zero_rank_step [1] [0] [0] [1] [1] [1] [1])^[n] ⟨0, 0⟩) =
        ZeroRankState.mk n 0 := by
    intro n
    induction n with
    | zero => simp
    | succ n ih =>
        rw [Function.iterate_succ_apply', ih]
        simp [zero_rank_step, sentinel_to_indices, tensor_sentinel]
  intro n
  rw [key n]
  exact ⟨Nat.zero_lt_one, rfl⟩

/-! ### C8: CircularBuffer overwrite behaviour -/

theorem circ_putAll_append (b : CircularBuffer α) (l : List α) (x : α) :
    CircularBuffer.putAll b (l ++ [x]) = (CircularBuffer.putAll b l).put x := by
  simp [CircularBuffer.putAll, List.foldl_append]

theorem circ_phase1 (α : Type) (N : ℕ) (hN : 1 ≤ N) :
    ∀ (items : List α), items.length ≤ N →
      (CircularBuffer.putAll (CircularBuffer.create α N) items).buffer =
        items.map some ++ List.replicate (N - items.length) none ∧
      (CircularBuffer.putAll (CircularBuffer.create α N) items).maxSize = N ∧
      (CircularBuffer.putAll (CircularBuffer.create α N) items).head = items.length % N ∧
      (CircularBuffer.putAll (CircularBuffer.create α N) items).tail = 0 ∧
      (CircularBuffer.putAll (CircularBuffer.create α N) items).full =
        decide (items.length = N) := by
  intro items
  induction items using List.reverseRecOn with
  | nil =>
      intro _
      refine ⟨by simp [CircularBuffer.putAll, CircularBuffer.create],
        rfl, by simp [CircularBuffer.putAll, CircularBuffer.create],
        rfl, ?_⟩
      simp [CircularBuffer.putAll, CircularBuffer.create]
      omega
  | append_singleton l x ih =>
      intro h
      have hl : l.length < N := by
        simp at h
        omega
      obtain ⟨ib, imax, ihd, itl, ifl⟩ := ih (le_of_lt hl)
      rw [circ_putAll_append]
      have hmod : l.length % N = l.length := Nat.mod_eq_of_lt hl
      have hfull : decide (l.length = N) = false := by
        simp
        omega
      have hrepl : (List.replicate (N - l.length) none : List (Option α)) =
          none :: List.replicate (N - (l.length + 1)) none := by
        have : N - l.length = (N - (l.length + 1)) + 1 := by omega
        rw [this, List.replicate_succ]
      have hset : ((l.map some ++ List.replicate (N - l.length) none : List (Option α))).set
          l.length (some x) =
          (l ++ [x]).map some ++ List.replicate (N - (l.length + 1)) none := by
        rw [hrepl]
        have hlen : l.length = (l.map some).length := by simp
        rw [hlen, set_append_length]
        simp
      have hiff : ((l.length + 1) % N = 0) = ((l ++ [x]).length = N) := by
        simp only [List.length_append, List.length_cons, List.length_nil]
        apply propext
        constructor
        · intro hz
          rcases Nat.lt_or_ge (l.length + 1) N with hc | hc
          · rw [Nat.mod_eq_of_lt hc] at hz
            omega
          · omega
        · intro he
          have : l.length + 1 = N := by omega
          rw [this, Nat.mod_self]
      unfold CircularBuffer.put
      rw [ib, imax, ihd, itl, ifl, hfull, hmod]
      refine ⟨by simpa using hset, rfl, by simp, by simp, ?_⟩
      simp only [Bool.false_eq_true, if_false]
      rw [decide_eq_decide]
      rw [hiff]

theorem circ_phase2 (α : Type) (N : ℕ) (hN : 1 ≤ N) :
    ∀ (items : List α), N ≤ items.length →
      (CircularBuffer.putAll (CircularBuffer.create α N) items).maxSize = N ∧
      (CircularBuffer.putAll (CircularBuffer.create α N) items).buffer.length = N ∧
      (CircularBuffer.putAll (CircularBuffer.create α N) items).head = items.length % N ∧
      (CircularBuffer.putAll (CircularBuffer.create α N) items).tail = items.length % N ∧
      (CircularBuffer.putAll (CircularBuffer.create α N) items).full = true ∧
      ∀ j, j < N →
        (CircularBuffer.putAll (CircularBuffer.create α N) items).buffer.getD
          ((items.length + j) % N) none = items[items.length - N + j]? := by
  intro items
  induction items using List.reverseRecOn with
  | nil =>
      intro h
      simp only [List.length_nil] at h
      omega
  | append_singleton l x ih =>
      intro h
      rcases Nat.lt_or_ge l.length N with hlt | hge
      · -- the put that first fills the buffer: l.length + 1 = N
        have hLN : l.length + 1 = N := by
          simp at h
          omega
        obtain ⟨ib, imax, ihd, itl, ifl⟩ := circ_phase1 α N hN l (le_of_lt hlt)
        rw [circ_putAll_append]
        have hmod : l.length % N = l.length := Nat.mod_eq_of_lt hlt
        have hfull : decide (l.length = N) = false := by
          simp
          omega
        have hrepl : (List.replicate (N - l.length) none : List (Option α)) =
            none :: List.replicate (N - (l.length + 1)) none := by
          have : N - l.length = (N - (l.length + 1)) + 1 := by omega
          rw [this, List.replicate_succ]
        have hset : ((l.map some ++ List.replicate (N - l.length) none : List (Option α))).set
            l.length (some x) =
            (l ++ [x]).map some ++ List.replicate (N - (l.length + 1)) none := by
          rw [hrepl]
          have hlen : l.length = (l.map some).length := by simp
          rw [hlen, set_append_length]
          simp
        have hrepl0 : N - (l.length + 1) = 0 := by omega
        unfold CircularBuffer.put
        rw [ib, imax, ihd, itl, ifl, hfull, hmod]
        simp only [Bool.false_eq_true, if_false]
        refine ⟨trivial, ?_, ?_, ?_, ?_, ?_⟩
        · rw [hset]
          simp [hrepl0]
          omega
        · simp
        · simp only [List.length_append, List.length_cons, List.length_nil]
          rw [hLN, Nat.mod_self]
        · rw [hLN, Nat.mod_self]
          simp
        · intro j hj
          rw [hset]
          simp only [hrepl0, List.replicate_zero, List.append_nil]
          have hidx : ((l ++ [x]).length + j) % N = j := by
            simp only [List.length_append, List.length_cons, List.length_nil]
            have : l.length + 1 + j = N + j := by omega
            rw [this, Nat.add_mod_left, Nat.mod_eq_of_lt hj]
          rw [hidx]
          have hsub : (l ++ [x]).length - N + j = j := by
            simp only [List.length_append, List.length_cons, List.length_nil]
            omega
          rw [hsub]
          have hj2 : j < (l ++ [x]).length := by
            simp only [List.length_append, List.length_cons, List.length_nil]
            omega
          rw [List.getD_eq_getElem?_getD, List.getElem?_map,
            List.getElem?_eq_getElem hj2]
          simp
      · -- the buffer was already full before this put
        obtain ⟨ihmax, ihlen, ihhead, ihtail, ihfull, ihget⟩ := ih hge
        rw [circ_putAll_append]
        unfold CircularBuffer.put
        rw [ihfull, ihmax, ihhead, ihtail]
        simp only [if_true]
        refine ⟨trivial, ?_, ?_, ?_, ?_, ?_⟩
        · simp [ihlen]
        · simp only [List.length_append, List.length_cons, List.length_nil]
          rw [Nat.mod_add_mod]
        · simp only [List.length_append, List.length_cons, List.length_nil]
          rw [Nat.mod_add_mod]
        · simp
        · intro j hj
          set L := l.length with hL
          have hNpos : 0 < N := by omega
          rcases Nat.lt_or_ge j (N - 1) with hj1 | hj1
          · -- untouched slot: comes from the old buffer
            have harith : ((l ++ [x]).length + j) % N = (L + (j + 1)) % N := by
              simp only [List.length_append, List.length_cons, List.length_nil]
              congr 1
              omega
            have hne : L % N ≠ ((l ++ [x]).length + j) % N := by
              rw [harith]
              intro hcontra
              have hmodeq : L ≡ L + (j + 1) [MOD N] := hcontra
              have hdvd : N ∣ (L + (j + 1) - L) :=
                (Nat.modEq_iff_dvd' (by omega)).mp hmodeq
              simp only [Nat.add_sub_cancel_left] at hdvd
              have := Nat.le_of_dvd (by omega) hdvd
              omega
            rw [List.getD_eq_getElem?_getD, List.getElem?_set_ne hne,
              ← List.getD_eq_getElem?_getD]
            rw [harith, ihget (j + 1) (by omega)]
            have hidx : (l ++ [x]).length - N + j = L - N + (j + 1) := by
              simp only [List.length_append, List.length_cons, List.length_nil]
              omega
            rw [hidx]
            have hlt2 : L - N + (j + 1) < L := by omega
            rw [List.getElem?_append_left hlt2]
          · -- the slot just written: j = N - 1
            have hjeq : j = N - 1 := by omega
            have hpos : ((l ++ [x]).length + j) % N = L % N := by
              simp only [List.length_append, List.length_cons, List.length_nil]
              subst hjeq
              have : L + 1 + (N - 1) = L + N := by omega
              rw [this, Nat.add_mod_right]
            rw [hpos, List.getD_eq_getElem?_getD,
              List.getElem?_set_eq_of_lt (some x)
                (by rw [ihlen]; exact Nat.mod_lt _ hNpos)]
            have hidx : (l ++ [x]).length - N + j = L := by
              simp only [List.length_append, List.length_cons, List.length_nil]
              omega
            rw [hidx]
            have : L = l.length + 0 := by omega
            rw [this, List.getElem?_append_right (by omega)]
            simp

/-- **C8**: a `CircularBuffer` of capacity `N ≥ 1` that receives `M > N`
`put` calls reports `size() = N` and `full() = true`; the element at the read
pointer (`_tail`) is the `(M - N + 1)`-th inserted item (the first `M - N`
were overwritten); and every `put` on a full buffer advances the read pointer
by exactly one slot (modulo the capacity). -/
theorem circular_buffer_overwrites_oldest (α : Type) (N : ℕ) (hN : 1 ≤ N)
    (items : List α) (hM : N < items.length) :
    (CircularBuffer.putAll (CircularBuffer.create α N) items).size = N ∧
    (CircularBuffer.putAll (CircularBuffer.create α N) items).full = true ∧
    (CircularBuffer.putAll (CircularBuffer.create α N) items).buffer.getD
      (CircularBuffer.putAll (CircularBuffer.create α N) items).tail none =
      items[items.length - N]? ∧
    (∀ (b : CircularBuffer α) (x : α), b.full = true →
      (b.put x).tail = (b.tail + 1) % b.maxSize) := by
  obtain ⟨hmax, hlen, hhead, htail, hfull, hget⟩ :=
    circ_phase2 α N hN items (le_of_lt hM)
  refine ⟨?_, hfull, ?_, ?_⟩
  · unfold CircularBuffer.size
    rw [hfull]
    simp [hmax]
  · rw [htail]
    have h0 := hget 0 (by omega)
    simpa using h0
  · intro b x hbf
    unfold CircularBuffer.put
    simp [hbf]

/-- **C8** witness: capacity 3, five inserts — `size() = 3`, `full()`, and the
oldest retained element is the third inserted. -/
theorem circular_buffer_overwrites_oldest_witness :
    (1 ≤ 3 ∧ 3 < ([1, 2, 3, 4, 5] : List ℕ).length) ∧
    ((CircularBuffer.putAll (CircularBuffer.create ℕ 3) [1, 2, 3, 4, 5]).size = 3 ∧
     (CircularBuffer.putAll (CircularBuffer.create ℕ 3) [1, 2, 3, 4, 5]).full = true ∧
     (CircularBuffer.putAll (CircularBuffer.create ℕ 3) [1, 2, 3, 4, 5]).buffer.getD
       (CircularBuffer.putAll (CircularBuffer.create ℕ 3) [1, 2, 3, 4, 5]).tail none =
       ([1, 2, 3, 4, 5] : List ℕ)[([1, 2, 3, 4, 5] : List ℕ).length - 3]? ∧
     (∀ (b : CircularBuffer ℕ) (x : ℕ), b.full = true →
       (b.put x).tail = (b.tail + 1) % b.maxSize)) :=
  ⟨⟨by decide, by decide⟩,
   circular_buffer_overwrites_oldest ℕ 3 (by decide) [1, 2, 3, 4, 5] (by decide)⟩

/-! ### C1: zero-vs-scale prefactor semantics of the contraction kernels -/

theorem set_c_zero_loop_spec :
    ∀ (n : ℕ) (C : List ℚ) (curr : ℕ), C.length - curr = n →
      set_c_zero_loop C curr C.length =
        C.take curr ++ List.replicate (C.length - curr) 0 := by
  intro n
  induction n with
  | zero =>
      intro C curr h
      rw [set_c_zero_loop]
      have hcur : ¬ curr < C.length := by omega
      simp [hcur, List.take_of_length_le (by omega : C.length ≤ curr), h]
  | succ n ih =>
      intro C curr h
      have hcur : curr < C.length := by omega
      rw [set_c_zero_loop]
      simp only [if_pos hcur]
      have hlen : (C.set curr 0).length = C.length := by simp
      have hrec := ih (C.set curr 0) (curr + 1) (by simp; omega)
      rw [hlen] at hrec
      rw [hrec]
      have h1 : (C.set curr 0).take (curr + 1) = C.take curr ++ [0] := by
        rw [List.set_eq_take_cons_drop 0 hcur, List.take_append_eq_append_take]
        have : (C.take curr).length = curr := by simp [le_of_lt hcur]
        rw [this]
        simp [List.take_take]
      rw [h1, List.append_assoc]
      have h2 : C.length - curr = (C.length - (curr + 1)) + 1 := by omega
      rw [h2, List.replicate_succ]
      rfl

theorem scale_c_loop_spec (cPref : ℚ) :
    ∀ (n : ℕ) (C : List ℚ) (curr : ℕ), C.length - curr = n →
      scale_c_loop cPref C curr C.length =
        C.take curr ++ (C.drop curr).map (fun x => x * cPref) := by
  intro n
  induction n with
  | zero =>
      intro C curr h
      rw [scale_c_loop]
      have hcur : ¬ curr < C.length := by omega
      simp [hcur, List.take_of_length_le (by omega : C.length ≤ curr),
        List.drop_eq_nil_of_le (by omega : C.length ≤ curr), h]
  | succ n ih =>
      intro C curr h
      have hcur : curr < C.length := by omega
      rw [scale_c_loop]
      simp only [if_pos hcur]
      have hlen : (C.set curr (C.getD curr 0 * cPref)).length = C.length := by simp
      have hrec := ih (C.set curr (C.getD curr 0 * cPref)) (curr + 1) (by simp; omega)
      rw [hlen] at hrec
      rw [hrec]
      have h1 : (C.set curr (C.getD curr 0 * cPref)).take (curr + 1) =
          C.take curr ++ [C.getD curr 0 * cPref] := by
        rw [List.set_eq_take_cons_drop _ hcur, List.take_append_eq_append_take]
        have : (C.take curr).length = curr := by simp [le_of_lt hcur]
        rw [this]
        simp [List.take_take]
      have h2 : (C.set curr (C.getD curr 0 * cPref)).drop (curr + 1) =
          C.drop (curr + 1) := by
        rw [List.set_eq_take_cons_drop _ hcur, List.drop_append_eq_append_drop]
        have : (C.take curr).length = curr := by simp [le_of_lt hcur]
        rw [this]
        simp
      rw [h1, h2, List.append_assoc]
      have h3 : C.drop curr = C.getD curr 0 :: C.drop (curr + 1) := by
        rw [List.getD_eq_getElem _ _ hcur]
        exact List.drop_eq_getElem_cons hcur
      rw [h3]
      rfl

/-- C1: in the contraction kernels, a prefactor of exactly zero makes every
element of C be overwritten — the kernel's result does not depend on C's
prior contents at all (covering NaN/uninitialized values, which are never
read) and equals the accumulation into an all-zero C; a nonzero prefactor
first scales every element of C in place before any product is accumulated.
The same dichotomy holds for the host-side rank-zero branch. -/
theorem einsum_prefactor_semantics
    (uS cT aT bT cDims cStride aStride bStride : List ℕ) (A B C C' : List ℚ)
    (cPref abPref : ℚ) (m : ℕ)
    (hgeom : cDims.getD 0 0 * cStride.getD 0 0 = C.length)
    (hlen : C'.length = C.length) :
    (cPref = 0 →
      einsum_generic_algorithm_gpu uS cT aT bT cPref C cDims cStride abPref A aStride B bStride m =
        contract_loop uS cT aT bT cStride aStride bStride abPref A B
          (List.replicate C.length 0) 0 m ∧
      einsum_generic_algorithm_gpu uS cT aT bT cPref C cDims cStride abPref A aStride B bStride m =
        einsum_generic_algorithm_gpu uS cT aT bT cPref C' cDims cStride abPref A aStride B bStride m ∧
      ∀ c c' : ℚ, einsum_rank0_host_setup cPref c = einsum_rank0_host_setup cPref c') ∧
    (cPref ≠ 0 →
      einsum_generic_algorithm_gpu uS cT aT bT cPref C cDims cStride abPref A aStride B bStride m =
        contract_loop uS cT aT bT cStride aStride bStride abPref A B
          (C.map (fun x => x * cPref)) 0 m ∧
      ∀ c : ℚ, einsum_rank0_host_setup cPref c = c * cPref) := by
  constructor
  · intro h0
    have hz : set_c_zero_loop C 0 C.length = List.replicate C.length 0 := by
      rw [set_c_zero_loop_spec C.length C 0 (by omega)]
      simp
    have hz' : set_c_zero_loop C' 0 C'.length = List.replicate C'.length 0 := by
      rw [set_c_zero_loop_spec C'.length C' 0 (by omega)]
      simp
    refine ⟨?_, ?_, ?_⟩
    · unfold einsum_generic_algorithm_gpu
      rw [hgeom]
      simp [h0, hz]
    · unfold einsum_generic_algorithm_gpu
      rw [hgeom]
      have hz2 : set_c_zero_loop C' 0 C.length = List.replicate C.length 0 := by
        rw [← hlen]
        exact hz'
      simp [h0, hz, hz2]
    · intro c c'
      simp [einsum_rank0_host_setup, h0]
  · intro hne
    constructor
    · have hs : scale_c_loop cPref C 0 C.length = C.map (fun x => x * cPref) := by
        rw [scale_c_loop_spec cPref C.length C 0 (by omega)]
        simp
      unfold einsum_generic_algorithm_gpu
      rw [hgeom]
      simp [hne, hs]
    · intro c
      simp [einsum_rank0_host_setup, hne]

/-- Witness for `einsum_prefactor_semantics` at a concrete 1-point geometry. -/
theorem einsum_prefactor_semantics_witness :
    (([1] : List ℕ).getD 0 0 * ([1] : List ℕ).getD 0 0 = ([5] : List ℚ).length) ∧
    ([7] : List ℚ).length = ([5] : List ℚ).length ∧
    (((0 : ℚ) = 0 →
      einsum_generic_algorithm_gpu [1] [0] [0] [0] 0 [5] [1] [1] 1 [1] [1] [1] [1] 1 =
        contract_loop [1] [0] [0] [0] [1] [1] [1] 1 [1] [1]
          (List.replicate ([5] : List ℚ).length 0) 0 1 ∧
      einsum_generic_algorithm_gpu [1] [0] [0] [0] 0 [5] [1] [1] 1 [1] [1] [1] [1] 1 =
        einsum_generic_algorithm_gpu [1] [0] [0] [0] 0 [7] [1] [1] 1 [1] [1] [1] [1] 1 ∧
      ∀ c c' : ℚ, einsum_rank0_host_setup 0 c = einsum_rank0_host_setup 0 c') ∧
    ((0 : ℚ) ≠ 0 →
      einsum_generic_algorithm_gpu [1] [0] [0] [0] 0 [5] [1] [1] 1 [1] [1] [1] [1] 1 =
        contract_loop [1] [0] [0] [0] [1] [1] [1] 1 [1] [1]
          (([5] : List ℚ).map (fun x => x * 0)) 0 1 ∧
      ∀ c : ℚ, einsum_rank0_host_setup 0 c = c * 0)) :=
  ⟨by decide, by decide,
    einsum_prefactor_semantics [1] [0] [0] [0] [1] [1] [1] [1] [1] [1] [5] [7] 0 1 1
      (by decide) (by decide)⟩

/-! ### C3: numa-balanced per-socket thread counts -/

/-- The natural-number form of `cppRound` agrees with
`⌊a/b + 1/2⌋` (round-half-up of the exact quotient). -/
theorem cppRound_eq_floor (a b : ℕ) (hb : 0 < b) :
    Affinity.cppRound a b = (Rat.floor ((a : ℚ) / (b : ℚ) + 1 / 2)).toNat := by
  have hfl : ∀ q : ℚ, Rat.floor q = ⌊q⌋ := by
    intro q
    rw [Rat.floor_def', Rat.floor_def]
  have hb' : (b : ℚ) ≠ 0 := Nat.cast_ne_zero.mpr (by omega)
  have hval : ((a : ℚ) / (b : ℚ) + 1 / 2) =
      (((2 * a + b : ℕ) : ℤ) : ℚ) / ((2 * b : ℕ) : ℚ) := by
    push_cast
    field_simp
    ring
  rw [hfl, hval, Rat.floor_intCast_div_natCast]
  have hcast : ((2 * a + b : ℕ) : ℤ) / ((2 * b : ℕ) : ℤ) =
      (((2 * a + b) / (2 * b) : ℕ) : ℤ) := (Int.ofNat_tdiv _ _).symm
  rw [hcast, Int.toNat_natCast]
  rfl

/-- C3 counterexample: with three sockets of one usable PU each
(`pus_socket = [1, 1, 1]`, `total_pus = 3`) and `num_threads = 1`, every
socket receives `round(1·1/3) = 0` threads, so the per-socket counts sum to
0 ≠ 1: the last socket does not absorb the rounding remainder and the one
requested thread receives no assignment. -/
theorem numa_counts_drop_threads :
    Affinity.numa_counts 1 [1, 1, 1] 3 = [0, 0, 0] ∧
    (Affinity.numa_counts 1 [1, 1, 1] 3).sum ≠ 1 ∧
    Affinity.cppRound (1 * 1) 3 = 0 := by
  decide

theorem numa_counts_go_spec (N pus_t : ℕ) :
    ∀ (l : List ℕ) (total : ℕ), total ≤ N →
      (Affinity.numa_counts_go N pus_t l total).sum + total ≤ N ∧
      ∀ n, n < l.length →
        (Affinity.numa_counts_go N pus_t l total).getD n 0 =
          min (Affinity.cppRound (N * l.getD n 0) pus_t)
            (N - (total + ((Affinity.numa_counts_go N pus_t l total).take n).sum)) := by
  intro l
  induction l with
  | nil =>
      intro total htot
      refine ⟨by simpa [Affinity.numa_counts_go] using htot, ?_⟩
      intro n hn
      simp at hn
  | cons s rest ih =>
      intro total htot
      set temp := Affinity.cppRound (N * s) pus_t with htemp
      by_cases hclamp : total + temp > N
      · obtain ⟨ihsum, ihget⟩ := ih (total + (N - total)) (by omega)
        constructor
        · simp only [Affinity.numa_counts_go, ← htemp, if_pos hclamp, List.sum_cons]
          omega
        · intro n hn
          match n with
          | 0 =>
              simp only [Affinity.numa_counts_go, ← htemp, if_pos hclamp,
                List.getD_cons_zero, List.take_zero, List.sum_nil]
              omega
          | n + 1 =>
              simp only [Affinity.numa_counts_go, ← htemp, if_pos hclamp,
                List.getD_cons_succ, List.take_succ_cons, List.sum_cons]
              rw [ihget n (by simpa using hn)]
              congr 1
              omega
      · obtain ⟨ihsum, ihget⟩ := ih (total + temp) (by omega)
        constructor
        · simp only [Affinity.numa_counts_go, ← htemp, if_neg hclamp, List.sum_cons]
          omega
        · intro n hn
          match n with
          | 0 =>
              simp only [Affinity.numa_counts_go, ← htemp, if_neg hclamp,
                List.getD_cons_zero, List.take_zero, List.sum_nil]
              omega
          | n + 1 =>
              simp only [Affinity.numa_counts_go, ← htemp, if_neg hclamp,
                List.getD_cons_succ, List.take_succ_cons, List.sum_cons]
              rw [ihget n (by simpa using hn)]
              congr 1
              omega

/-- C3 (amended): the numa-balanced per-socket thread counts are
`round(num_threads · pus_socket[n] / total_pus)` clamped so the running
total never exceeds `num_threads`; their sum never exceeds `num_threads` but
can fall short of it (the deficit is not absorbed by the last socket, see
`numa_counts_drop_threads`), and the spec's example topology (sockets of 8
and 4 usable PUs, 9 threads) splits 6 / 3. -/
theorem numa_counts_clamped (N : ℕ) (pusSocket : List ℕ) (pus_t : ℕ) :
    (Affinity.numa_counts N pusSocket pus_t).sum ≤ N ∧
    (∀ n, n < pusSocket.length →
      (Affinity.numa_counts N pusSocket pus_t).getD n 0 =
        min (Affinity.cppRound (N * pusSocket.getD n 0) pus_t)
          (N - ((Affinity.numa_counts N pusSocket pus_t).take n).sum)) ∧
    Affinity.numa_counts 9 [8, 4] 12 = [6, 3] := by
  obtain ⟨hsum, hget⟩ := numa_counts_go_spec N pus_t pusSocket 0 (Nat.zero_le N)
  refine ⟨by simpa [Affinity.numa_counts] using hsum, ?_, by decide⟩
  intro n hn
  have := hget n hn
  simpa [Affinity.numa_counts] using this

/-- Witness for `numa_counts_clamped` at the spec's example, socket 0. -/
theorem numa_counts_clamped_witness :
    (0 : ℕ) < ([8, 4] : List ℕ).length ∧
    (Affinity.numa_counts 9 [8, 4] 12).getD 0 0 =
      min (Affinity.cppRound (9 * ([8, 4] : List ℕ).getD 0 0) 12)
        (9 - ((Affinity.numa_counts 9 [8, 4] 12).take 0).sum) :=
  ⟨by decide, (numa_counts_clamped 9 [8, 4] 12).2.1 0 (by decide)⟩

/-! ### Affinity helper lemmas -/

theorem find_next_pu_go_spec (elig : ℕ → Bool) :
    ∀ (rem cur : ℕ),
      ((find_next_pu_go elig cur rem).2 = true →
        cur + 1 ≤ (find_next_pu_go elig cur rem).1 ∧
        (find_next_pu_go elig cur rem).1 ≤ cur + rem ∧
        elig ((find_next_pu_go elig cur rem).1 - 1) = true ∧
        (∀ q, cur ≤ q → q < (find_next_pu_go elig cur rem).1 - 1 → elig q = false)) ∧
      ((find_next_pu_go elig cur rem).2 = false →
        (find_next_pu_go elig cur rem).1 = cur + rem ∧
        (∀ q, cur ≤ q → q < cur + rem → elig q = false)) := by
  intro rem
  induction rem with
  | zero =>
      intro cur
      constructor
      · intro h
        simp [find_next_pu_go] at h
      · intro _
        exact ⟨rfl, fun q h1 h2 => absurd h2 (by omega)⟩
  | succ rem ih =>
      intro cur
      by_cases he : elig cur
      · constructor
        · intro _
          simp only [find_next_pu_go, if_pos he]
          refine ⟨le_refl _, by omega, by simpa using he, ?_⟩
          intro q h1 h2
          simp at h2
          omega
        · intro h
          simp [find_next_pu_go, if_pos he] at h
      · have hgo : find_next_pu_go elig cur (rem + 1) =
            find_next_pu_go elig (cur + 1) rem := by
          simp [find_next_pu_go, if_neg he]
        obtain ⟨ihT, ihF⟩ := ih (cur + 1)
        constructor
        · intro h
          rw [hgo] at h ⊢
          obtain ⟨h1, h2, h3, h4⟩ := ihT h
          refine ⟨by omega, by omega, h3, ?_⟩
          intro q hq1 hq2
          rcases Nat.eq_or_lt_of_le hq1 with heq | hlt
          · subst heq
            simpa using he
          · exact h4 q (by omega) hq2
        · intro h
          rw [hgo] at h ⊢
          obtain ⟨h1, h2⟩ := ihF h
          refine ⟨by omega, ?_⟩
          intro q hq1 hq2
          rcases Nat.eq_or_lt_of_le hq1 with heq | hlt
          · subst heq
            simpa using he
          · exact h2 q (by omega) (by omega)

theorem find_next_pu_found (elig : ℕ → Bool) {cur n : ℕ} (h : cur ≤ n)
    (hf : (find_next_pu elig cur n).2 = true) :
    cur + 1 ≤ (find_next_pu elig cur n).1 ∧ (find_next_pu elig cur n).1 ≤ n ∧
    elig ((find_next_pu elig cur n).1 - 1) = true ∧
    ∀ q, cur ≤ q → q < (find_next_pu elig cur n).1 - 1 → elig q = false := by
  have := (find_next_pu_go_spec elig (n - cur) cur).1
  unfold find_next_pu at hf ⊢
  obtain ⟨h1, h2, h3, h4⟩ := this hf
  exact ⟨h1, by omega, h3, h4⟩

theorem find_next_pu_not_found (elig : ℕ → Bool) {cur n : ℕ} (h : cur ≤ n)
    (hf : (find_next_pu elig cur n).2 = false) :
    (find_next_pu elig cur n).1 = n ∧ ∀ q, cur ≤ q → q < n → elig q = false := by
  have := (find_next_pu_go_spec elig (n - cur) cur).2
  unfold find_next_pu at hf ⊢
  obtain ⟨h1, h2⟩ := this hf
  refine ⟨by omega, ?_⟩
  intro q h1' h2'
  exact h2 q h1' (by omega)

theorem filter_range_stall (q : ℕ → Bool) :
    ∀ (m cur : ℕ), cur ≤ m → (∀ x, cur ≤ x → x < m → q x = false) →
      (List.range m).filter q = (List.range cur).filter q := by
  intro m
  induction m with
  | zero =>
      intro cur h _
      have : cur = 0 := by omega
      rw [this]
  | succ m ih =>
      intro cur h hmid
      rcases Nat.eq_or_lt_of_le h with heq | hlt
      · rw [heq]
      · have hq : q m = false := hmid m (by omega) (by omega)
        rw [List.range_succ, List.filter_append]
        simp [hq]
        exact ih cur (by omega) (fun x h1 h2 => hmid x h1 (by omega))

theorem filter_range_extend (q : ℕ → Bool) (cur p0 : ℕ) (hc : cur ≤ p0)
    (hmid : ∀ x, cur ≤ x → x < p0 → q x = false) (hp : q p0 = true) :
    (List.range (p0 + 1)).filter q = (List.range cur).filter q ++ [p0] := by
  rw [List.range_succ, List.filter_append, filter_range_stall q p0 cur hc hmid]
  simp [hp]

theorem sum_take_mono (L : List ℕ) {a b : ℕ} (h : a ≤ b) :
    (L.take a).sum ≤ (L.take b).sum := by
  have hsplit : L.take b = (L.take b).take a ++ (L.take b).drop a :=
    (List.take_append_drop a (L.take b)).symm
  have htt : (L.take b).take a = L.take a := by
    rw [List.take_take]
    rw [Nat.min_eq_left h]
  calc (L.take a).sum ≤ (L.take a).sum + ((L.take b).drop a).sum := Nat.le_add_right _ _
    _ = (L.take b).sum := by
        conv_rhs => rw [hsplit]
        rw [List.sum_append, htt]

theorem sum_take_succ_getD (L : List ℕ) (c : ℕ) (h : c < L.length) :
    (L.take (c + 1)).sum = (L.take c).sum + L.getD c 0 := by
  rw [List.getD_eq_getElem _ _ h]
  exact List.sum_take_succ L c h

/-- Strict monotonicity of the global PU number in the lexicographic order of
valid (core, pu) pairs. -/
theorem get_pu_number_lt (t : Topology) {c p c' p' : ℕ}
    (hp : p < t.get_number_of_core_pus c) (hcc : c < c') :
    t.get_pu_number c p < t.get_pu_number c' p' := by
  unfold Topology.get_pu_number
  have hc : c < t.corePus.length := by
    by_contra hge
    have : t.corePus.getD c 0 = 0 := by
      rw [List.getD_eq_default]
      omega
    unfold Topology.get_number_of_core_pus at hp
    omega
  have h1 : (t.corePus.take (c + 1)).sum = (t.corePus.take c).sum + t.corePus.getD c 0 :=
    sum_take_succ_getD _ _ hc
  have h2 : (t.corePus.take (c + 1)).sum ≤ (t.corePus.take c').sum :=
    sum_take_mono _ (by omega)
  unfold Topology.get_number_of_core_pus at hp
  omega

/-- Injectivity of the global PU number on valid pairs. -/
theorem get_pu_number_inj (t : Topology) {c p c' p' : ℕ}
    (hp : p < t.get_number_of_core_pus c) (hp' : p' < t.get_number_of_core_pus c')
    (heq : t.get_pu_number c p = t.get_pu_number c' p') : c = c' ∧ p = p' := by
  rcases Nat.lt_trichotomy c c' with hlt | hceq | hgt
  · exact absurd heq (Nat.ne_of_lt (get_pu_number_lt t hp hlt))
  · refine ⟨hceq, ?_⟩
    subst hceq
    unfold Topology.get_pu_number at heq
    omega
  · exact absurd heq.symm (Nat.ne_of_lt (get_pu_number_lt t hp' hgt))

/-- The global PU numbers of the machine's pairs, in compact order, are
exactly `0, 1, …, total - 1`. -/
theorem pairsOf_map_pu_number :
    ∀ (L : List ℕ),
      (pairsOf L).map (fun cp => (L.take cp.1).sum + cp.2) = List.range L.sum := by
  intro L
  induction L with
  | nil => rfl
  | cons d L' ih =>
      have hsplit : pairsOf (d :: L') =
          ((List.range d).map fun p => ((0 : ℕ), p)) ++
            ((pairsOf L').map fun cp => (cp.1 + 1, cp.2)) := by
        unfold pairsOf
        rw [show (d :: L').length = L'.length + 1 from rfl, List.range_succ_eq_map,
          List.flatMap_cons, List.flatMap_map, List.map_flatMap]
        congr 1
        apply congrArg
        funext a
        rw [List.map_map]
        apply List.map_congr_left
        intro p _
        rfl
      rw [hsplit, List.map_append]
      have h1 : ((List.range d).map fun p => ((0 : ℕ), p)).map
          (fun cp => ((d :: L').take cp.1).sum + cp.2) = List.range d := by
        rw [List.map_map]
        have hfun : ((fun cp => ((d :: L').take cp.1).sum + cp.2) ∘
            fun p => ((0 : ℕ), p)) = fun p => p := by
          funext p
          simp
        rw [hfun, List.map_id']
      have h2 : ((pairsOf L').map fun cp => (cp.1 + 1, cp.2)).map
          (fun cp => ((d :: L').take cp.1).sum + cp.2) =
          (List.range L'.sum).map (fun x => d + x) := by
        rw [List.map_map, ← ih, List.map_map]
        apply List.map_congr_left
        intro cp _
        simp only [Function.comp_apply, List.take_succ_cons, List.sum_cons]
        omega
      rw [h1, h2, List.sum_cons, List.range_add]

theorem sum_map_getD_range (L : List ℕ) :
    ((List.range L.length).map (fun c => L.getD c 0)).sum = L.sum := by
  induction L with
  | nil => rfl
  | cons d L' ih =>
      rw [show (d :: L').length = L'.length + 1 from rfl, List.range_succ_eq_map,
        List.map_cons, List.map_map, List.sum_cons]
      have : ((List.range L'.length).map ((fun c => (d :: L').getD c 0) ∘ Nat.succ)).sum =
          ((List.range L'.length).map (fun c => L'.getD c 0)).sum := by
        apply congrArg
        apply List.map_congr_left
        intro c _
        simp [Function.comp]
      rw [this, ih]
      rfl

/-- The per-core eligible counts sum to the length of the filtered flat pair
list. -/
theorem totalElig_eq_filter_pairs (t : Topology) (elig : ℕ → ℕ → Bool) :
    totalElig t elig =
      ((pairsOf t.corePus).filter (fun cp => elig cp.1 cp.2)).length := by
  unfold totalElig pairsOf
  rw [List.filter_flatMap, List.length_flatMap]
  apply congrArg
  apply List.map_congr_left
  intro c _
  simp only [Function.comp_apply]
  rw [List.filter_map, List.length_map]
  rfl

theorem length_filter_range_mem (pm : Finset ℕ) (T : ℕ) (hpm : ∀ x ∈ pm, x < T) :
    ((List.range T).filter (fun x => decide (x ∈ pm))).length = pm.card := by
  have hnodup : ((List.range T).filter (fun x => decide (x ∈ pm))).Nodup :=
    (List.nodup_range T).filter _
  have hfin : ((List.range T).filter (fun x => decide (x ∈ pm))).toFinset = pm := by
    ext x
    simp only [List.mem_toFinset, List.mem_filter, List.mem_range, decide_eq_true_eq]
    exact ⟨fun h => h.2, fun h => ⟨hpm x h, h⟩⟩
  rw [← List.toFinset_card_of_nodup hnodup, hfin]

/-- The machine's eligible-PU count equals the number of usable processing
units `check_num_threads` compares against. -/
theorem totalElig_eq_usable (t : Topology) (upm : Bool) (pm : Finset ℕ)
    (hpm : upm = true → ∀ x ∈ pm, x < t.hardware_concurrency) :
    totalElig t (fun c p => pu_in_process_mask upm pm t c p) = usable_pus upm pm t := by
  cases upm with
  | false =>
      unfold totalElig usable_pus pu_in_process_mask
      simp only [Bool.false_eq_true, if_false, List.filter_true]
      rw [show (fun c => (List.range (t.get_number_of_core_pus c)).length) =
        (fun c => t.corePus.getD c 0) from ?_]
      · exact sum_map_getD_range t.corePus
      · funext c
        simp [Topology.get_number_of_core_pus]
  | true =>
      rw [totalElig_eq_filter_pairs]
      have hcomm : ((pairsOf t.corePus).filter
          (fun cp => pu_in_process_mask true pm t cp.1 cp.2)).map
            (fun cp => (t.corePus.take cp.1).sum + cp.2) =
          ((pairsOf t.corePus).map (fun cp => (t.corePus.take cp.1).sum + cp.2)).filter
            (fun x => decide (x ∈ pm)) := by
        rw [List.filter_map]
        apply congrArg
        apply List.filter_congr
        intro cp _
        simp [pu_in_process_mask, Topology.get_pu_number, Function.comp]
      have hlen : ((pairsOf t.corePus).filter
          (fun cp => pu_in_process_mask true pm t cp.1 cp.2)).length =
          (((pairsOf t.corePus).map (fun cp => (t.corePus.take cp.1).sum + cp.2)).filter
            (fun x => decide (x ∈ pm))).length := by
        rw [← hcomm, List.length_map]
      rw [hlen, pairsOf_map_pu_number]
      unfold usable_pus
      simp only [if_true]
      exact length_filter_range_mem pm _ (hpm rfl)

theorem take_succ_set (l : List α) (k : ℕ) (v : α) (h : k < l.length) :
    (l.set k v).take (k + 1) = l.take k ++ [v] := by
  rw [List.set_eq_take_cons_drop v h, List.take_append_eq_append_take]
  have hlen : (l.take k).length = k := by simp [le_of_lt h]
  rw [hlen]
  simp [List.take_take]

theorem getD_set_ne (l : List α) (d : α) {i j : ℕ} (v : α) (h : i ≠ j) :
    (l.set i v).getD j d = l.getD j d := by
  rw [List.getD_eq_getElem?_getD, List.getElem?_set_ne h, ← List.getD_eq_getElem?_getD]

theorem getD_set_self (l : List α) (d : α) {i : ℕ} (v : α) (h : i < l.length) :
    (l.set i v).getD i d = v := by
  rw [List.getD_eq_getElem?_getD, List.getElem?_set_eq_of_lt v h]
  rfl

/-! ### The compact decoder -/

theorem compact_pairs_zero (t : Topology) :
    compact_pairs t 0 t.get_number_of_cores = pairsOf t.corePus := by
  unfold compact_pairs pairsOf
  rfl

theorem compact_pass_spec (t : Topology) (upm : Bool) (pm : Finset ℕ) (N : ℕ) :
    ∀ (pairs : List (ℕ × ℕ)) (affs : List (Option ℕ)) (pus : List ℕ) (k : ℕ),
      affs.length = N → k < N →
      (∀ j, k ≤ j → affs.getD j none = none) →
      N - k ≤ (pairs.filter (fun cp => pu_in_process_mask upm pm t cp.1 cp.2)).length →
      ∃ pus' : List ℕ,
        compact_pass t upm pm 0 N pairs ⟨affs, pus, k⟩ =
          .done ⟨affs.take k ++
            ((pairs.filter (fun cp => pu_in_process_mask upm pm t cp.1 cp.2)).take
              (N - k)).map (fun cp => some (t.get_pu_number cp.1 cp.2)),
            pus', N⟩ := by
  intro pairs
  induction pairs with
  | nil =>
      intro affs pus k _ hk _ hcount
      simp only [List.filter_nil, List.length_nil] at hcount
      omega
  | cons cp rest ih =>
      intro affs pus k hlen hk hclean hcount
      obtain ⟨c, p⟩ := cp
      by_cases helig : pu_in_process_mask upm pm t c p
      · have hkclean : affs.getD k none = none := hclean k (le_refl k)
        have hfilter : ((c, p) :: rest).filter
            (fun cp => pu_in_process_mask upm pm t cp.1 cp.2) =
            (c, p) :: rest.filter (fun cp => pu_in_process_mask upm pm t cp.1 cp.2) := by
          simp [List.filter_cons, helig]
        rcases Nat.eq_or_lt_of_le (Nat.succ_le_of_lt hk) with hN | hN
        · -- k + 1 = N: this assignment finishes the decoder
          subst hN
          refine ⟨pus.set k (t.get_pu_number (c + 0) p), ?_⟩
          have hNk : k.succ - k = 1 := by omega
          rw [hfilter, hNk]
          simp only [compact_pass]
          rw [if_neg (not_not_intro helig), hkclean]
          simp only [Option.isSome_none, Bool.false_eq_true, if_false, if_true]
          have haffs : affs.set k (some (t.get_pu_number (c + 0) p)) =
              affs.take k ++ [some (t.get_pu_number (c + 0) p)] := by
            rw [List.set_eq_take_cons_drop _ (by omega),
              List.drop_eq_nil_of_le (by omega : affs.length ≤ k + 1)]
          rw [haffs]
          simp
        · -- k + 1 < N: recurse
          have hrest : N - (k + 1) ≤
              (rest.filter (fun cp => pu_in_process_mask upm pm t cp.1 cp.2)).length := by
            rw [hfilter] at hcount
            simp only [List.length_cons] at hcount
            omega
          obtain ⟨pus', hrec⟩ := ih (affs.set k (some (t.get_pu_number (c + 0) p)))
            (pus.set k (t.get_pu_number (c + 0) p)) (k + 1)
            (by simp [hlen]) hN
            (fun j hj => by
              rw [getD_set_ne _ _ _ (by omega : k ≠ j)]
              exact hclean j (by omega))
            hrest
          refine ⟨pus', ?_⟩
          simp only [compact_pass]
          rw [if_neg (not_not_intro helig), hkclean]
          simp only [Option.isSome_none, Bool.false_eq_true, if_false]
          rw [if_neg (by omega : ¬ k + 1 = N), hrec]
          have htake : (affs.set k (some (t.get_pu_number (c + 0) p))).take (k + 1) =
              affs.take k ++ [some (t.get_pu_number (c + 0) p)] := by
            rw [take_succ_set _ _ _ (by omega)]
          rw [htake, hfilter]
          have hNk : N - k = (N - (k + 1)) + 1 := by omega
          rw [hNk, List.take_succ_cons, List.map_cons, List.append_assoc]
          simp
      · have hfilter : ((c, p) :: rest).filter
            (fun cp => pu_in_process_mask upm pm t cp.1 cp.2) =
            rest.filter (fun cp => pu_in_process_mask upm pm t cp.1 cp.2) := by
          simp [List.filter_cons, helig]
        rw [hfilter] at hcount
        obtain ⟨pus', hrec⟩ := ih affs pus k hlen hk hclean hcount
        refine ⟨pus', ?_⟩
        simp only [compact_pass]
        rw [if_pos (by simpa using helig), hrec, hfilter]

/-- The compact decoder fills all `N` masks with pairwise distinct
single-PU masks when `N` does not exceed the usable PU count. -/
theorem decode_compact_ok (t : Topology) (upm : Bool) (pm : Finset ℕ) (N : ℕ)
    (pus0 : List ℕ) (hpm : upm = true → ∀ x ∈ pm, x < t.hardware_concurrency)
    (hN : N ≤ usable_pus upm pm t) :
    ∃ affs pus', decode_compact_distribution t upm pm 0 t.get_number_of_cores
        (List.replicate N none) pus0 = some (.ok ⟨affs, pus', N⟩) ∧
      affs.length = N ∧ (∀ a ∈ affs, a.isSome = true) ∧ affs.Nodup := by
  have hcheck : check_num_threads upm pm t N = .ok () := by
    unfold usable_pus at hN
    unfold check_num_threads
    cases upm
    · simp only [Bool.false_eq_true, if_false] at hN ⊢
      rw [if_neg (by omega)]
    · simp only [if_true] at hN ⊢
      rw [if_neg (by omega)]
  have hElen : N ≤ ((pairsOf t.corePus).filter
      (fun cp => pu_in_process_mask upm pm t cp.1 cp.2)).length := by
    rw [← totalElig_eq_filter_pairs, totalElig_eq_usable t upm pm hpm]
    exact hN
  unfold decode_compact_distribution
  simp only [List.length_replicate, hcheck, ite_self, Nat.min_self, compact_pairs_zero]
  rcases Nat.eq_zero_or_pos N with hN0 | hNpos
  · subst hN0
    refine ⟨[], listResize pus0 0 0, ?_, rfl, by simp, List.nodup_nil⟩
    simp [compact_loop, List.replicate]
  · obtain ⟨pus', hpass⟩ := compact_pass_spec t upm pm N (pairsOf t.corePus)
      (List.replicate N none) (listResize pus0 N 0) 0
      (by simp) hNpos
      (fun j _ => by
        rw [List.getD_eq_getElem?_getD, List.getElem?_replicate]
        split <;> rfl)
      (by omega)
    set E := (pairsOf t.corePus).filter (fun cp => pu_in_process_mask upm pm t cp.1 cp.2)
      with hE
    refine ⟨(E.take N).map (fun cp => some (t.get_pu_number cp.1 cp.2)), pus', ?_, ?_, ?_, ?_⟩
    · show compact_loop t upm pm 0 N (pairsOf t.corePus) (N + 1)
        ⟨List.replicate N none, listResize pus0 N 0, 0⟩ = _
      rw [show N + 1 = N + 1 from rfl]
      simp only [compact_loop]
      rw [if_pos (by omega : 0 < N), hpass]
      simp
    · rw [List.length_map, List.length_take]
      omega
    · intro a ha
      obtain ⟨cp, _, hcp⟩ := List.mem_map.mp ha
      rw [← hcp]
      rfl
    · have hmapg : (E.take N).map (fun cp => some (t.get_pu_number cp.1 cp.2)) =
          ((E.take N).map (fun cp => (t.corePus.take cp.1).sum + cp.2)).map some := by
        rw [List.map_map]
        rfl
      rw [hmapg]
      apply List.Nodup.map (Option.some_injective ℕ)
      have hsub : List.Sublist ((E.take N).map (fun cp => (t.corePus.take cp.1).sum + cp.2))
          ((pairsOf t.corePus).map (fun cp => (t.corePus.take cp.1).sum + cp.2)) := by
        apply List.Sublist.map
        exact (List.take_sublist N E).trans (List.filter_sublist _)
      rw [pairsOf_map_pu_number] at hsub
      exact (List.nodup_range _).sublist hsub

/-! ### The scatter decoder -/

theorem sum_map_range_set_point (f f' : ℕ → ℕ) :
    ∀ (nc c : ℕ), c < nc → (∀ x, x ≠ c → f' x = f x) → f' c = f c + 1 →
      ((List.range nc).map f').sum = ((List.range nc).map f).sum + 1 := by
  intro nc
  induction nc with
  | zero =>
      intro c hc
      omega
  | succ m ih =>
      intro c hc hne hdelta
      rw [List.range_succ, List.map_append, List.map_append, List.sum_append,
        List.sum_append]
      rcases Nat.lt_or_ge c m with hcm | hcm
      · have h1 : ((List.range m).map f').sum = ((List.range m).map f).sum + 1 :=
          ih c hcm hne hdelta
        have h2 : f' m = f m := hne m (by omega)
        simp [h1, h2]
        omega
      · have hceq : c = m := by omega
        subst hceq
        have h1 : (List.range c).map f' = (List.range c).map f := by
          apply List.map_congr_left
          intro x hx
          exact hne x (by simp at hx; omega)
        simp [h1, hdelta]
        omega

theorem sum_map_range_congr_except (f f' : ℕ → ℕ) (nc c : ℕ)
    (hne : ∀ x, x ≠ c → f' x = f x) (hsame : f' c = f c) :
    ((List.range nc).map f').sum = ((List.range nc).map f).sum := by
  apply congrArg
  apply List.map_congr_left
  intro x _
  by_cases hx : x = c
  · rw [hx, hsame]
  · exact hne x hx

theorem map_getD_range (l : List α) (d : α) :
    (List.range l.length).map (fun j => l.getD j d) = l := by
  induction l with
  | nil => rfl
  | cons a l' ih =>
      rw [show (a :: l').length = l'.length + 1 from rfl, List.range_succ_eq_map,
        List.map_cons, List.map_map]
      have : (List.range l'.length).map ((fun j => (a :: l').getD j d) ∘ Nat.succ) =
          (List.range l'.length).map (fun j => l'.getD j d) := by
        apply List.map_congr_left
        intro j _
        simp [Function.comp]
      rw [this, ih]
      rfl

theorem flatMap_sublist {f h : α → List β} :
    ∀ (l : List α), (∀ a ∈ l, List.Sublist (f a) (h a)) →
      List.Sublist (l.flatMap f) (l.flatMap h) := by
  intro l
  induction l with
  | nil =>
      intro _
      simp
  | cons a l' ih =>
      intro hfh
      rw [List.flatMap_cons, List.flatMap_cons]
      exact List.Sublist.append (hfh a (List.mem_cons_self a l'))
        (ih fun b hb => hfh b (List.mem_cons_of_mem a hb))

theorem scatter_pass_spec (t : Topology) (upm : Bool) (pm : Finset ℕ) (N : ℕ) :
    ∀ (cores : List ℕ) (s : SState),
      ScatterInv t (fun c p => pu_in_process_mask upm pm t c p) N s →
      s.k < N →
      (∀ c ∈ cores, c < t.get_number_of_cores) →
      (match scatter_pass t upm pm 0 N cores s with
       | .thrown _ => False
       | .done s' =>
           ScatterInv t (fun c p => pu_in_process_mask upm pm t c p) N s' ∧ s'.k = N
       | .cont s' =>
           ScatterInv t (fun c p => pu_in_process_mask upm pm t c p) N s' ∧
           s.k ≤ s'.k ∧ s'.k < N ∧
           (∀ c, s.cursors.getD c 0 ≤ s'.cursors.getD c 0) ∧
           (s'.k = s.k → ∀ c ∈ cores,
             s'.cursors.getD c 0 = t.get_number_of_core_pus c)) := by
  intro cores
  induction cores with
  | nil =>
      intro s hInv hk _
      simp only [scatter_pass]
      exact ⟨hInv, le_refl _, hk, fun c => le_refl _,
        fun _ c hc => absurd hc (List.not_mem_nil c)⟩
  | cons c rest ih =>
      intro s hInv hk hcores
      obtain ⟨hlen, hclen, hkN, hclean, hcur, hsound, hcomplete, hdist, hcount⟩ := hInv
      have hc : c < t.get_number_of_cores := hcores c (List.mem_cons_self c rest)
      have hkclean : s.affs.getD s.k none = none := hclean s.k (le_refl _)
      simp only [scatter_pass]
      rw [hkclean]
      simp only [Option.isSome_none, Bool.false_eq_true, if_false]
      have hcn : s.cursors.getD c 0 ≤ t.get_number_of_core_pus c := hcur c hc
      by_cases hfound :
        (find_next_pu (fun p => pu_in_process_mask upm pm t c p) (s.cursors.getD c 0)
          (t.get_number_of_core_pus c)).2 = true
      · -- an eligible PU was found on this core
        obtain ⟨hge, hle, helig, hmid⟩ := find_next_pu_found _ hcn hfound
        set r := find_next_pu (fun p => pu_in_process_mask upm pm t c p)
          (s.cursors.getD c 0) (t.get_number_of_core_pus c) with hrdef
        set p0 := r.1 - 1 with hp0
        rw [if_neg (by simp [hfound])]
        -- the new state after the assignment
        set gval := t.get_pu_number (c + 0) (r.1 - 1) with hgval
        have hgval' : gval = t.get_pu_number c p0 := rfl
        have hext : eligBelow (fun c' p => pu_in_process_mask upm pm t c' p)
            (s.cursors.set c r.1) c =
            eligBelow (fun c' p => pu_in_process_mask upm pm t c' p) s.cursors c ++ [p0] := by
          unfold eligBelow
          rw [getD_set_self _ _ _ (by omega : c < s.cursors.length),
            show r.1 = p0 + 1 from by omega]
          exact filter_range_extend _ _ _ (by omega) hmid (by simpa using helig)
        have hInv2 : ScatterInv t (fun c' p => pu_in_process_mask upm pm t c' p) N
            ⟨s.affs.set s.k (some gval), s.pus.set s.k gval,
              s.cursors.set c r.1, s.k + 1⟩ := by
          unfold ScatterInv
          dsimp only
          refine ⟨by simp [hlen], by simp [hclen], by omega, ?_, ?_, ?_, ?_, ?_, ?_⟩
          · intro j hj
            rw [getD_set_ne _ _ _ (by omega : s.k ≠ j)]
            exact hclean j (by omega)
          · intro c' hc'
            by_cases hcc : c' = c
            · subst hcc
              rw [getD_set_self _ _ _ (by omega : c' < s.cursors.length)]
              omega
            · rw [getD_set_ne _ _ _ (fun h => hcc h.symm)]
              exact hcur c' hc'
          · intro j hj
            rcases Nat.lt_or_ge j s.k with hjk | hjk
            · obtain ⟨c', p', hc', hp', hpn', helig', hval'⟩ := hsound j hjk
              refine ⟨c', p', hc', ?_, hpn', helig', ?_⟩
              · by_cases hcc : c' = c
                · subst hcc
                  rw [getD_set_self _ _ _ (by omega : c' < s.cursors.length)]
                  omega
                · rw [getD_set_ne _ _ _ (fun h => hcc h.symm)]
                  exact hp'
              · rw [getD_set_ne _ _ _ (by omega : s.k ≠ j)]
                exact hval'
            · have hjeq : j = s.k := by omega
              subst hjeq
              refine ⟨c, p0, hc, ?_, by omega, by simpa using helig, ?_⟩
              · rw [getD_set_self _ _ _ (by omega : c < s.cursors.length)]
                omega
              · rw [getD_set_self _ _ _ (by omega : s.k < s.affs.length), hgval']
          · intro c' p' hc' hp' helig'
            by_cases hcc : c' = c
            · subst hcc
              rw [getD_set_self _ _ _ (by omega : c' < s.cursors.length)] at hp'
              rcases Nat.lt_or_ge p' (s.cursors.getD c' 0) with hpcur | hpcur
              · obtain ⟨j, hj, hval⟩ := hcomplete c' p' hc' hpcur helig'
                refine ⟨j, by omega, ?_⟩
                rw [getD_set_ne _ _ _ (by omega : s.k ≠ j)]
                exact hval
              · have hp0 : p' = p0 := by
                  by_contra hne
                  have : pu_in_process_mask upm pm t c' p' = false :=
                    hmid p' hpcur (by omega)
                  rw [helig'] at this
                  exact absurd this (by simp)
                subst hp0
                refine ⟨s.k, by omega, ?_⟩
                rw [getD_set_self _ _ _ (by omega : s.k < (s.affs).length), hgval']
            · rw [getD_set_ne _ _ _ (fun h => hcc h.symm)] at hp'
              obtain ⟨j, hj, hval⟩ := hcomplete c' p' hc' hp' helig'
              refine ⟨j, by omega, ?_⟩
              rw [getD_set_ne _ _ _ (by omega : s.k ≠ j)]
              exact hval
          · intro j j' hj hj' hjj
            rcases Nat.lt_or_ge j s.k with hjk | hjk <;>
              rcases Nat.lt_or_ge j' s.k with hjk' | hjk'
            · rw [getD_set_ne _ _ _ (by omega : s.k ≠ j),
                getD_set_ne _ _ _ (by omega : s.k ≠ j')]
              exact hdist j j' hjk hjk' hjj
            · have hj'eq : j' = s.k := by omega
              subst hj'eq
              rw [getD_set_ne _ _ _ (by omega : s.k ≠ j),
                getD_set_self _ _ _ (by omega : s.k < s.affs.length)]
              obtain ⟨c', p', hc', hp', hpn', helig', hval'⟩ := hsound j hjk
              rw [hval', hgval']
              intro hcontra
              have heq := Option.some_injective _ hcontra
              obtain ⟨hceq, hpeq⟩ := get_pu_number_inj t hpn' (by omega) heq
              subst hceq
              omega
            · have hjeq : j = s.k := by omega
              subst hjeq
              rw [getD_set_ne _ _ _ (by omega : s.k ≠ j'),
                getD_set_self _ _ _ (by omega : s.k < s.affs.length)]
              obtain ⟨c', p', hc', hp', hpn', helig', hval'⟩ := hsound j' hjk'
              rw [hval', hgval']
              intro hcontra
              have heq := Option.some_injective _ hcontra.symm
              obtain ⟨hceq, hpeq⟩ := get_pu_number_inj t hpn' (by omega) heq
              subst hceq
              omega
            · omega
          · show s.k + 1 = _
            rw [sum_map_range_set_point
              (fun c' => (eligBelow (fun c'' p => pu_in_process_mask upm pm t c'' p)
                s.cursors c').length)
              (fun c' => (eligBelow (fun c'' p => pu_in_process_mask upm pm t c'' p)
                (s.cursors.set c r.1) c').length)
              t.get_number_of_cores c hc ?_ ?_]
            · omega
            · intro x hx
              dsimp only
              unfold eligBelow
              rw [getD_set_ne _ _ _ (fun h => hx h.symm)]
            · dsimp only
              rw [hext]
              simp
        by_cases hdone : s.k + 1 = N
        · rw [if_pos (by omega : s.k + 1 = N)]
          exact ⟨hInv2, hdone⟩
        · rw [if_neg (by omega : ¬ s.k + 1 = N)]
          have := ih ⟨s.affs.set s.k (some gval), s.pus.set s.k gval,
            s.cursors.set c r.1, s.k + 1⟩ hInv2 (by dsimp only; omega)
            (fun c' hc' => hcores c' (List.mem_cons_of_mem c hc'))
          revert this
          cases hres : scatter_pass t upm pm 0 N rest
            ⟨s.affs.set s.k (some gval), s.pus.set s.k gval,
              s.cursors.set c r.1, s.k + 1⟩ with
          | thrown e => exact id
          | done s' => exact id
          | cont s' =>
              intro ⟨hInv', hk1, hk2, hmono, hstall⟩
              dsimp only at hk1 hmono hstall
              refine ⟨hInv', by omega, hk2, ?_, ?_⟩
              · intro c'
                refine le_trans ?_ (hmono c')
                by_cases hcc : c' = c
                · subst hcc
                  rcases Nat.lt_or_ge c' s.cursors.length with hlt | hge
                  · rw [getD_set_self _ _ _ hlt]
                    omega
                  · rw [List.getD_eq_default _ _ (by simpa using hge)]
                    omega
                · rw [getD_set_ne _ _ _ (fun h => hcc h.symm)]
              · intro hkk
                omega
      · -- no eligible PU remains on this core
        obtain ⟨hcend, hnone⟩ := find_next_pu_not_found _ hcn
          (by simpa using hfound)
        set r := find_next_pu (fun p => pu_in_process_mask upm pm t c p)
          (s.cursors.getD c 0) (t.get_number_of_core_pus c) with hrdef
        rw [if_pos (by simpa using hfound)]
        have hstallc : eligBelow (fun c' p => pu_in_process_mask upm pm t c' p)
            (s.cursors.set c r.1) c =
            eligBelow (fun c' p => pu_in_process_mask upm pm t c' p) s.cursors c := by
          unfold eligBelow
          rw [getD_set_self _ _ _ (by omega : c < s.cursors.length), hcend]
          exact filter_range_stall _ _ _ hcn hnone
        have hInv1 : ScatterInv t (fun c' p => pu_in_process_mask upm pm t c' p) N
            { s with cursors := s.cursors.set c r.1 } := by
          unfold ScatterInv
          dsimp only
          refine ⟨hlen, by simp [hclen], hkN, hclean, ?_, ?_, ?_, hdist, ?_⟩
          · intro c' hc'
            by_cases hcc : c' = c
            · subst hcc
              rw [getD_set_self _ _ _ (by omega : c' < s.cursors.length)]
              omega
            · rw [getD_set_ne _ _ _ (fun h => hcc h.symm)]
              exact hcur c' hc'
          · intro j hj
            obtain ⟨c', p', hc', hp', hpn', helig', hval'⟩ := hsound j hj
            refine ⟨c', p', hc', ?_, hpn', helig', hval'⟩
            by_cases hcc : c' = c
            · subst hcc
              rw [getD_set_self _ _ _ (by omega : c' < s.cursors.length)]
              omega
            · rw [getD_set_ne _ _ _ (fun h => hcc h.symm)]
              exact hp'
          · intro c' p' hc' hp' helig'
            by_cases hcc : c' = c
            · subst hcc
              rw [getD_set_self _ _ _ (by omega : c' < s.cursors.length)] at hp'
              rcases Nat.lt_or_ge p' (s.cursors.getD c' 0) with hpcur | hpcur
              · exact hcomplete c' p' hc' hpcur helig'
              · have : pu_in_process_mask upm pm t c' p' = false :=
                  hnone p' hpcur (by omega)
                rw [helig'] at this
                exact absurd this (by simp)
            · rw [getD_set_ne _ _ _ (fun h => hcc h.symm)] at hp'
              exact hcomplete c' p' hc' hp' helig'
          · show s.k = _
            rw [sum_map_range_congr_except
              (fun c' => (eligBelow (fun c'' p => pu_in_process_mask upm pm t c'' p)
                s.cursors c').length)
              (fun c' => (eligBelow (fun c'' p => pu_in_process_mask upm pm t c'' p)
                (s.cursors.set c r.1) c').length)
              t.get_number_of_cores c ?_ ?_]
            · exact hcount
            · intro x hx
              dsimp only
              unfold eligBelow
              rw [getD_set_ne _ _ _ (fun h => hx h.symm)]
            · dsimp only
              rw [hstallc]
        have := ih { s with cursors := s.cursors.set c r.1 } hInv1 hk
          (fun c' hc' => hcores c' (List.mem_cons_of_mem c hc'))
        revert this
        cases hres : scatter_pass t upm pm 0 N rest
          { s with cursors := s.cursors.set c r.1 } with
        | thrown e => exact id
        | done s' => exact id
        | cont s' =>
            intro ⟨hInv', hk1, hk2, hmono, hstall⟩
            dsimp only at hk1 hmono hstall
            refine ⟨hInv', hk1, hk2, ?_, ?_⟩
            · intro c'
              refine le_trans ?_ (hmono c')
              by_cases hcc : c' = c
              · subst hcc
                rcases Nat.lt_or_ge c' s.cursors.length with hlt | hge
                · rw [getD_set_self _ _ _ hlt]
                  omega
                · rw [List.getD_eq_default _ _ (by simpa using hge)]
                  omega
              · rw [getD_set_ne _ _ _ (fun h => hcc h.symm)]
            · intro hkk c' hc'
              rcases List.mem_cons.mp hc' with hcc | hcrest
              · subst hcc
                have h1 := hmono c'
                have h2 : s'.cursors.getD c' 0 ≤ t.get_number_of_core_pus c' := by
                  obtain ⟨_, _, _, _, hcur', _⟩ := hInv'
                  exact hcur' c' hc
                have h3 : (s.cursors.set c' r.1).getD c' 0 = t.get_number_of_core_pus c' := by
                  rw [getD_set_self _ _ _ (by omega : c' < s.cursors.length), hcend]
                omega
              · exact hstall hkk c' hcrest

theorem scatter_loop_ok (t : Topology) (upm : Bool) (pm : Finset ℕ) (N : ℕ)
    (hN : N ≤ totalElig t (fun c p => pu_in_process_mask upm pm t c p)) :
    ∀ (fuel : ℕ) (s : SState),
      ScatterInv t (fun c p => pu_in_process_mask upm pm t c p) N s →
      N - s.k < fuel →
      ∃ s', scatter_loop t upm pm 0 N (List.range t.get_number_of_cores) fuel s =
          some (.ok s') ∧
        ScatterInv t (fun c p => pu_in_process_mask upm pm t c p) N s' ∧ s'.k = N := by
  intro fuel
  induction fuel with
  | zero =>
      intro s _ h
      omega
  | succ fuel ih =>
      intro s hInv hfuel
      by_cases hk : s.k < N
      · have hpass := scatter_pass_spec t upm pm N (List.range t.get_number_of_cores) s
          hInv hk (fun c hc => List.mem_range.mp hc)
        simp only [scatter_loop]
        rw [if_pos hk]
        revert hpass
        cases hres : scatter_pass t upm pm 0 N (List.range t.get_number_of_cores) s with
        | thrown e => exact fun h => h.elim
        | done s' =>
            intro ⟨hInv', hkN⟩
            exact ⟨s', rfl, hInv', hkN⟩
        | cont s' =>
            intro ⟨hInv', hk1, hk2, hmono, hstall⟩
            rcases Nat.lt_or_ge s.k s'.k with hprog | hstale
            · exact ih s' hInv' (by omega)
            · have hkk : s'.k = s.k := by omega
              have hall := hstall hkk
              exfalso
              obtain ⟨_, hclen', _, _, _, _, _, _, hcount'⟩ := hInv'
              have hfull : ((List.range t.get_number_of_cores).map
                  (fun c => (eligBelow (fun c' p => pu_in_process_mask upm pm t c' p)
                    s'.cursors c).length)).sum =
                  totalElig t (fun c p => pu_in_process_mask upm pm t c p) := by
                unfold totalElig
                apply congrArg
                apply List.map_congr_left
                intro c hc
                unfold eligBelow
                rw [hall c hc]
              omega
      · simp only [scatter_loop]
        rw [if_neg hk]
        have hkN : s.k ≤ N := hInv.2.2.1
        exact ⟨s, rfl, hInv, by omega⟩

theorem getD_replicate_zero (nc c : ℕ) : (List.replicate nc (0 : ℕ)).getD c 0 = 0 := by
  rw [List.getD_eq_getElem?_getD, List.getElem?_replicate]
  split <;> rfl

theorem getD_replicate_none (N j : ℕ) :
    (List.replicate N (none : Option ℕ)).getD j none = none := by
  rw [List.getD_eq_getElem?_getD, List.getElem?_replicate]
  split <;> rfl

/-- The scatter decoder fills all `N` masks with pairwise distinct single-PU
masks when `N` does not exceed the usable PU count. -/
theorem decode_scatter_ok (t : Topology) (upm : Bool) (pm : Finset ℕ) (N : ℕ)
    (pus0 : List ℕ) (hpm : upm = true → ∀ x ∈ pm, x < t.hardware_concurrency)
    (hN : N ≤ usable_pus upm pm t) :
    ∃ s', decode_scatter_distribution t upm pm 0 t.get_number_of_cores
        (List.replicate N none) pus0 = some (.ok s') ∧
      s'.affs.length = N ∧ (∀ a ∈ s'.affs, a.isSome = true) ∧ s'.affs.Nodup := by
  have hcheck : check_num_threads upm pm t N = .ok () := by
    unfold usable_pus at hN
    unfold check_num_threads
    cases upm
    · simp only [Bool.false_eq_true, if_false] at hN ⊢
      rw [if_neg (by omega)]
    · simp only [if_true] at hN ⊢
      rw [if_neg (by omega)]
  have htotal : N ≤ totalElig t (fun c p => pu_in_process_mask upm pm t c p) := by
    rw [totalElig_eq_usable t upm pm hpm]
    exact hN
  have hInv0 : ScatterInv t (fun c p => pu_in_process_mask upm pm t c p) N
      ⟨List.replicate N none, listResize pus0 N 0,
        List.replicate t.get_number_of_cores 0, 0⟩ := by
    unfold ScatterInv
    dsimp only
    refine ⟨by simp, by simp, by omega, fun j _ => getD_replicate_none N j,
      fun c _ => by rw [getD_replicate_zero]; omega,
      fun j hj => by omega,
      fun c p _ hp _ => by rw [getD_replicate_zero] at hp; omega,
      fun j j' hj _ _ => by omega, ?_⟩
    have : ∀ c, (eligBelow (fun c' p => pu_in_process_mask upm pm t c' p)
        (List.replicate t.get_number_of_cores 0) c).length = 0 := by
      intro c
      unfold eligBelow
      rw [getD_replicate_zero]
      rfl
    rw [List.map_congr_left (fun c _ => this c)]
    simp
  obtain ⟨s', hloop, hInv', hk'⟩ := scatter_loop_ok t upm pm N htotal (N + 1)
    ⟨List.replicate N none, listResize pus0 N 0,
      List.replicate t.get_number_of_cores 0, 0⟩ hInv0 (by dsimp only; omega)
  obtain ⟨hlen', _, _, _, _, hsound', _, hdist', _⟩ := hInv'
  refine ⟨s', ?_, hlen', ?_, ?_⟩
  · unfold decode_scatter_distribution
    simp only [List.length_replicate, hcheck, ite_self, Nat.min_self]
    exact hloop
  · intro a ha
    obtain ⟨j, hj, hval⟩ := List.mem_iff_getElem.mp ha
    have hgd : s'.affs.getD j none = a := by
      rw [List.getD_eq_getElem _ _ hj, hval]
    obtain ⟨c, p, _, _, _, _, hv⟩ := hsound' j (by omega)
    rw [hgd] at hv
    rw [hv]
    rfl
  · rw [List.nodup_iff_getElem?_ne_getElem?]
    intro i j hij hj
    rw [List.getElem?_eq_getElem (by omega : i < s'.affs.length),
      List.getElem?_eq_getElem hj]
    have hd := hdist' i j (by omega) (by omega) (by omega)
    rw [List.getD_eq_getElem _ _ (by omega : i < s'.affs.length),
      List.getD_eq_getElem _ _ hj] at hd
    intro hcontra
    exact hd (by rw [Option.some_injective _ hcontra])

/-! ### The balanced decoder -/

theorem prepass_spec (t : Topology) (elig : ℕ → ℕ → Bool) (N : ℕ) :
    ∀ (cores : List ℕ) (s : PrePassState),
      PreInv t elig t.get_number_of_cores N s → s.k < N →
      (∀ c ∈ cores, c < t.get_number_of_cores) →
      (match prepass (fun c => t.get_number_of_core_pus c) elig N cores s with
       | .done s' => PreInv t elig t.get_number_of_cores N s' ∧ s'.k = N
       | .cont s' => PreInv t elig t.get_number_of_cores N s' ∧
           s.k ≤ s'.k ∧ s'.k < N ∧
           (∀ c, s.cursors.getD c 0 ≤ s'.cursors.getD c 0) ∧
           (s'.k = s.k → ∀ c ∈ cores,
             s'.cursors.getD c 0 = t.get_number_of_core_pus c)) := by
  intro cores
  induction cores with
  | nil =>
      intro s hInv hk _
      simp only [prepass]
      exact ⟨hInv, le_refl _, hk, fun c => le_refl _,
        fun _ c hc => absurd hc (List.not_mem_nil c)⟩
  | cons c rest ih =>
      intro s hInv hk hcores
      obtain ⟨hclen, hplen, hnlen, hkN, hcur, hidx, hcnt, hcount⟩ := hInv
      have hc : c < t.get_number_of_cores := hcores c (List.mem_cons_self c rest)
      simp only [prepass]
      have hcn : s.cursors.getD c 0 ≤ t.get_number_of_core_pus c := hcur c hc
      by_cases hfound :
        (find_next_pu (elig c) (s.cursors.getD c 0) (t.get_number_of_core_pus c)).2 = true
      · obtain ⟨hge, hle, helig, hmid⟩ := find_next_pu_found _ hcn hfound
        set r := find_next_pu (elig c) (s.cursors.getD c 0) (t.get_number_of_core_pus c)
          with hrdef
        set p0 := r.1 - 1 with hp0
        rw [if_neg (by simp [hfound])]
        have hext : eligBelow elig (s.cursors.set c r.1) c =
            eligBelow elig s.cursors c ++ [p0] := by
          unfold eligBelow
          rw [getD_set_self _ _ _ (by omega : c < s.cursors.length),
            show r.1 = p0 + 1 from by omega]
          exact filter_range_extend _ _ _ (by omega) hmid (by simpa using helig)
        have hInv2 : PreInv t elig t.get_number_of_cores N
            ⟨s.cursors.set c r.1,
              s.puIdx.set c ((s.puIdx.getD c []) ++ [r.1 - 1]),
              s.counts.set c (s.counts.getD c 0 + 1), s.k + 1⟩ := by
          unfold PreInv
          dsimp only
          refine ⟨by simp [hclen], by simp [hplen], by simp [hnlen], by omega,
            ?_, ?_, ?_, ?_⟩
          · intro c' hc'
            by_cases hcc : c' = c
            · subst hcc
              rw [getD_set_self _ _ _ (by omega : c' < s.cursors.length)]
              omega
            · rw [getD_set_ne _ _ _ (fun h => hcc h.symm)]
              exact hcur c' hc'
          · intro c' hc'
            by_cases hcc : c' = c
            · subst hcc
              rw [getD_set_self _ _ _ (by omega : c' < s.puIdx.length), hext,
                hidx c' hc']
            · rw [getD_set_ne _ _ _ (fun h => hcc h.symm)]
              rw [hidx c' hc']
              unfold eligBelow
              rw [getD_set_ne _ _ _ (fun h => hcc h.symm)]
          · intro c' hc'
            by_cases hcc : c' = c
            · subst hcc
              rw [getD_set_self _ _ _ (by omega : c' < s.counts.length),
                getD_set_self _ _ _ (by omega : c' < s.puIdx.length),
                hcnt c' hc']
              simp
            · rw [getD_set_ne _ _ _ (fun h => hcc h.symm),
                getD_set_ne _ _ _ (fun h => hcc h.symm)]
              exact hcnt c' hc'
          · rw [sum_map_range_set_point
              (fun c' => (eligBelow elig s.cursors c').length)
              (fun c' => (eligBelow elig (s.cursors.set c r.1) c').length)
              t.get_number_of_cores c hc ?_ ?_]
            · omega
            · intro x hx
              dsimp only
              unfold eligBelow
              rw [getD_set_ne _ _ _ (fun h => hx h.symm)]
            · dsimp only
              rw [hext]
              simp
        by_cases hdone : s.k + 1 = N
        · rw [if_pos (by omega : s.k + 1 = N)]
          exact ⟨hInv2, hdone⟩
        · rw [if_neg (by omega : ¬ s.k + 1 = N)]
          have := ih ⟨s.cursors.set c r.1,
            s.puIdx.set c ((s.puIdx.getD c []) ++ [r.1 - 1]),
            s.counts.set c (s.counts.getD c 0 + 1), s.k + 1⟩ hInv2
            (by dsimp only; omega)
            (fun c' hc' => hcores c' (List.mem_cons_of_mem c hc'))
          revert this
          cases hres : prepass (fun c => t.get_number_of_core_pus c) elig N rest
            ⟨s.cursors.set c r.1,
              s.puIdx.set c ((s.puIdx.getD c []) ++ [r.1 - 1]),
              s.counts.set c (s.counts.getD c 0 + 1), s.k + 1⟩ with
          | done s' => exact id
          | cont s' =>
              intro ⟨hInv', hk1, hk2, hmono, hstall⟩
              dsimp only at hk1 hmono hstall
              refine ⟨hInv', by omega, hk2, ?_, ?_⟩
              · intro c'
                refine le_trans ?_ (hmono c')
                by_cases hcc : c' = c
                · subst hcc
                  rcases Nat.lt_or_ge c' s.cursors.length with hlt | hge'
                  · rw [getD_set_self _ _ _ hlt]
                    omega
                  · rw [List.getD_eq_default _ _ (by simpa using hge')]
                    omega
                · rw [getD_set_ne _ _ _ (fun h => hcc h.symm)]
              · intro hkk
                omega
      · obtain ⟨hcend, hnone⟩ := find_next_pu_not_found _ hcn (by simpa using hfound)
        set r := find_next_pu (elig c) (s.cursors.getD c 0) (t.get_number_of_core_pus c)
          with hrdef
        rw [if_pos (by simpa using hfound)]
        have hstallc : eligBelow elig (s.cursors.set c r.1) c =
            eligBelow elig s.cursors c := by
          unfold eligBelow
          rw [getD_set_self _ _ _ (by omega : c < s.cursors.length), hcend]
          exact filter_range_stall _ _ _ hcn hnone
        have hInv1 : PreInv t elig t.get_number_of_cores N
            { s with cursors := s.cursors.set c r.1 } := by
          unfold PreInv
          dsimp only
          refine ⟨by simp [hclen], hplen, hnlen, hkN, ?_, ?_, hcnt, ?_⟩
          · intro c' hc'
            by_cases hcc : c' = c
            · subst hcc
              rw [getD_set_self _ _ _ (by omega : c' < s.cursors.length)]
              omega
            · rw [getD_set_ne _ _ _ (fun h => hcc h.symm)]
              exact hcur c' hc'
          · intro c' hc'
            by_cases hcc : c' = c
            · subst hcc
              rw [hstallc]
              exact hidx c' hc'
            · rw [hidx c' hc']
              unfold eligBelow
              rw [getD_set_ne _ _ _ (fun h => hcc h.symm)]
          · rw [sum_map_range_congr_except
              (fun c' => (eligBelow elig s.cursors c').length)
              (fun c' => (eligBelow elig (s.cursors.set c r.1) c').length)
              t.get_number_of_cores c ?_ ?_]
            · exact hcount
            · intro x hx
              dsimp only
              unfold eligBelow
              rw [getD_set_ne _ _ _ (fun h => hx h.symm)]
            · dsimp only
              rw [hstallc]
        have := ih { s with cursors := s.cursors.set c r.1 } hInv1 hk
          (fun c' hc' => hcores c' (List.mem_cons_of_mem c hc'))
        revert this
        cases hres : prepass (fun c => t.get_number_of_core_pus c) elig N rest
          { s with cursors := s.cursors.set c r.1 } with
        | done s' => exact id
        | cont s' =>
            intro ⟨hInv', hk1, hk2, hmono, hstall⟩
            dsimp only at hk1 hmono hstall
            refine ⟨hInv', hk1, hk2, ?_, ?_⟩
            · intro c'
              refine le_trans ?_ (hmono c')
              by_cases hcc : c' = c
              · subst hcc
                rcases Nat.lt_or_ge c' s.cursors.length with hlt | hge'
                · rw [getD_set_self _ _ _ hlt]
                  omega
                · rw [List.getD_eq_default _ _ (by simpa using hge')]
                  omega
              · rw [getD_set_ne _ _ _ (fun h => hcc h.symm)]
            · intro hkk c' hc'
              rcases List.mem_cons.mp hc' with hcc | hcrest
              · subst hcc
                have h1 := hmono c'
                have h2 : s'.cursors.getD c' 0 ≤ t.get_number_of_core_pus c' := by
                  obtain ⟨_, _, _, _, hcur', _⟩ := hInv'
                  exact hcur' c' hc
                have h3 : (s.cursors.set c' r.1).getD c' 0 =
                    t.get_number_of_core_pus c' := by
                  rw [getD_set_self _ _ _ (by omega : c' < s.cursors.length), hcend]
                omega
              · exact hstall hkk c' hcrest

theorem prepass_loop_ok (t : Topology) (elig : ℕ → ℕ → Bool) (N : ℕ)
    (hN : N ≤ totalElig t elig) :
    ∀ (fuel : ℕ) (s : PrePassState),
      PreInv t elig t.get_number_of_cores N s → N - s.k < fuel →
      ∃ s', prepass_loop (fun c => t.get_number_of_core_pus c) elig N
          (List.range t.get_number_of_cores) fuel s = some s' ∧
        PreInv t elig t.get_number_of_cores N s' ∧ s'.k = N := by
  intro fuel
  induction fuel with
  | zero =>
      intro s _ h
      omega
  | succ fuel ih =>
      intro s hInv hfuel
      by_cases hk : s.k < N
      · have hpass := prepass_spec t elig N (List.range t.get_number_of_cores) s
          hInv hk (fun c hc => List.mem_range.mp hc)
        simp only [prepass_loop]
        rw [if_pos hk]
        revert hpass
        cases hres : prepass (fun c => t.get_number_of_core_pus c) elig N
          (List.range t.get_number_of_cores) s with
        | done s' =>
            intro ⟨hInv', hkN⟩
            exact ⟨s', rfl, hInv', hkN⟩
        | cont s' =>
            intro ⟨hInv', hk1, hk2, hmono, hstall⟩
            rcases Nat.lt_or_ge s.k s'.k with hprog | hstale
            · exact ih s' hInv' (by omega)
            · have hkk : s'.k = s.k := by omega
              have hall := hstall hkk
              exfalso
              obtain ⟨_, _, _, _, _, _, _, hcount'⟩ := hInv'
              have hfull : ((List.range t.get_number_of_cores).map
                  (fun c => (eligBelow elig s'.cursors c).length)).sum =
                  totalElig t elig := by
                unfold totalElig
                apply congrArg
                apply List.map_congr_left
                intro c hc
                unfold eligBelow
                rw [hall c hc]
              omega
      · simp only [prepass_loop]
        rw [if_neg hk]
        have hkN : s.k ≤ N := hInv.2.2.2.1
        exact ⟨s, rfl, hInv, by omega⟩

theorem flush_assign_spec (affPu pusPu : ℕ → ℕ → ℕ) :
    ∀ (pairs : List (ℕ × ℕ)) (affs : List (Option ℕ)) (pus : List ℕ) (k : ℕ),
      k + pairs.length ≤ affs.length →
      (∀ j, k ≤ j → affs.getD j none = none) →
      ∃ pus', flush_assign affPu pusPu pairs ⟨affs, pus, k⟩ =
        .ok ⟨affs.take k ++ pairs.map (fun cp => some (affPu cp.1 cp.2)) ++
            List.replicate (affs.length - k - pairs.length) none,
          pus', k + pairs.length⟩ := by
  intro pairs
  induction pairs with
  | nil =>
      intro affs pus k hlen hclean
      refine ⟨pus, ?_⟩
      simp only [flush_assign, List.map_nil, List.append_nil, List.length_nil,
        Nat.add_zero]
      have hdrop : affs.drop k = List.replicate (affs.length - k) none := by
        rw [List.eq_replicate_iff]
        refine ⟨by simp, ?_⟩
        intro b hb
        obtain ⟨i, hi, hval⟩ := List.mem_iff_getElem.mp hb
        rw [List.getElem_drop] at hval
        have := hclean (k + i) (by omega)
        rw [List.getD_eq_getElem _ _ (by simp at hi; omega)] at this
        rw [← hval, this]
      conv_lhs => rw [← List.take_append_drop k affs]
      rw [hdrop]
      have : affs.length - k - 0 = affs.length - k := by omega
      rw [this]
  | cons cp rest ih =>
      intro affs pus k hlen hclean
      obtain ⟨c, p⟩ := cp
      have hkl : k < affs.length := by
        simp only [List.length_cons] at hlen
        omega
      have hkclean : affs.getD k none = none := hclean k (le_refl _)
      obtain ⟨pus', hrec⟩ := ih (affs.set k (some (affPu c p)))
        (pus.set k (pusPu c p)) (k + 1)
        (by simp only [List.length_set, List.length_cons] at hlen ⊢; omega)
        (fun j hj => by
          rw [getD_set_ne _ _ _ (by omega : k ≠ j)]
          exact hclean j (by omega))
      refine ⟨pus', ?_⟩
      simp only [flush_assign]
      rw [hkclean]
      simp only [Option.isSome_none, Bool.false_eq_true, if_false]
      rw [hrec]
      have htake : (affs.set k (some (affPu c p))).take (k + 1) =
          affs.take k ++ [some (affPu c p)] := by
        rw [take_succ_set _ _ _ hkl]
      rw [htake]
      have hlen2 : (affs.set k (some (affPu c p))).length = affs.length := by simp
      rw [hlen2]
      simp only [List.map_cons, List.length_cons]
      have harith : affs.length - (k + 1) - rest.length =
          affs.length - k - (rest.length + 1) := by omega
      rw [harith]
      have harith2 : k + 1 + rest.length = k + (rest.length + 1) := by omega
      rw [harith2]
      simp [List.append_assoc]

theorem flatMap_congr_mem {f h : α → List β} :
    ∀ (l : List α), (∀ a ∈ l, f a = h a) → l.flatMap f = l.flatMap h := by
  intro l
  induction l with
  | nil =>
      intro _
      rfl
  | cons a l' ih =>
      intro hfh
      rw [List.flatMap_cons, List.flatMap_cons,
        hfh a (List.mem_cons_self a l'),
        ih (fun b hb => hfh b (List.mem_cons_of_mem a hb))]

/-- The balanced decoder fills all `N` masks with pairwise distinct single-PU
masks when `N` does not exceed the usable PU count. -/
theorem decode_balanced_ok (t : Topology) (upm : Bool) (pm : Finset ℕ) (N : ℕ)
    (pus0 : List ℕ) (hpm : upm = true → ∀ x ∈ pm, x < t.hardware_concurrency)
    (hN : N ≤ usable_pus upm pm t) :
    ∃ s2 : AssignState, decode_balanced_distribution t upm pm 0 t.get_number_of_cores
        (List.replicate N none) pus0 = some (.ok s2) ∧
      s2.affs.length = N ∧ (∀ a ∈ s2.affs, a.isSome = true) ∧ s2.affs.Nodup := by
  have hcheck : check_num_threads upm pm t N = .ok () := by
    unfold usable_pus at hN
    unfold check_num_threads
    cases upm
    · simp only [Bool.false_eq_true, if_false] at hN ⊢
      rw [if_neg (by omega)]
    · simp only [if_true] at hN ⊢
      rw [if_neg (by omega)]
  have htotal : N ≤ totalElig t (fun c p => pu_in_process_mask upm pm t c p) := by
    rw [totalElig_eq_usable t upm pm hpm]
    exact hN
  have hInv0 : PreInv t (fun c p => pu_in_process_mask upm pm t c p)
      t.get_number_of_cores N
      ⟨List.replicate t.get_number_of_cores 0,
        List.replicate t.get_number_of_cores [],
        List.replicate t.get_number_of_cores 0, 0⟩ := by
    unfold PreInv
    dsimp only
    refine ⟨by simp, by simp, by simp, by omega,
      fun c _ => by rw [getD_replicate_zero]; omega, ?_, ?_, ?_⟩
    · intro c _
      unfold eligBelow
      rw [getD_replicate_zero]
      rw [List.getD_eq_getElem?_getD, List.getElem?_replicate]
      split <;> rfl
    · intro c _
      rw [getD_replicate_zero]
      rw [List.getD_eq_getElem?_getD, List.getElem?_replicate]
      split <;> rfl
    · have hzero : ∀ c, (eligBelow (fun c' p => pu_in_process_mask upm pm t c' p)
          (List.replicate t.get_number_of_cores 0) c).length = 0 := by
        intro c
        unfold eligBelow
        rw [getD_replicate_zero]
        rfl
      rw [List.map_congr_left (fun c _ => hzero c)]
      simp
  obtain ⟨s1, hloop, hInv1, hk1⟩ := prepass_loop_ok t
    (fun c p => pu_in_process_mask upm pm t c p) N htotal (N + 1)
    ⟨List.replicate t.get_number_of_cores 0,
      List.replicate t.get_number_of_cores [],
      List.replicate t.get_number_of_cores 0, 0⟩ hInv0 (by dsimp only; omega)
  obtain ⟨hclen1, hplen1, hnlen1, _, hcur1, hidx1, hcnt1, hcount1⟩ := hInv1
  have hpairs : flush_pairs s1.counts s1.puIdx t.get_number_of_cores =
      (List.range t.get_number_of_cores).flatMap
        (fun c => (eligBelow (fun c' p => pu_in_process_mask upm pm t c' p)
          s1.cursors c).map (fun p => (c, p))) := by
    unfold flush_pairs
    apply flatMap_congr_mem
    intro c hc
    have hc' : c < t.get_number_of_cores := List.mem_range.mp hc
    rw [hcnt1 c hc', hidx1 c hc']
    rw [show (fun j => (c, (eligBelow (fun c' p => pu_in_process_mask upm pm t c' p)
        s1.cursors c).getD j 0)) = ((fun p => (c, p)) ∘
        (fun j => (eligBelow (fun c' p => pu_in_process_mask upm pm t c' p)
          s1.cursors c).getD j 0)) from rfl]
    rw [← List.map_map, map_getD_range]
  have hpflen : (flush_pairs s1.counts s1.puIdx t.get_number_of_cores).length = N := by
    rw [hpairs, List.length_flatMap]
    have : ∀ c ∈ List.range t.get_number_of_cores,
        ((eligBelow (fun c' p => pu_in_process_mask upm pm t c' p)
          s1.cursors c).map (fun p => (c, p))).length =
        (eligBelow (fun c' p => pu_in_process_mask upm pm t c' p) s1.cursors c).length := by
      intro c _
      rw [List.length_map]
    rw [List.map_congr_left (fun c hc => by rw [Function.comp_apply, this c hc])]
    omega
  obtain ⟨pus', hflush⟩ := flush_assign_spec
    (fun c p => t.get_pu_number (c + 0) p) (fun c p => t.get_pu_number (c + 0) p)
    (flush_pairs s1.counts s1.puIdx t.get_number_of_cores)
    (List.replicate N none) (listResize pus0 N 0) 0
    (by simp [hpflen]) (fun j _ => getD_replicate_none N j)
  simp only [List.take_zero, List.nil_append, List.length_replicate, hpflen,
    Nat.sub_zero, Nat.sub_self, List.replicate_zero, List.append_nil,
    Nat.zero_add] at hflush
  refine ⟨⟨(flush_pairs s1.counts s1.puIdx t.get_number_of_cores).map
      (fun cp => some (t.get_pu_number (cp.1 + 0) cp.2)), pus', N⟩, ?_, ?_, ?_, ?_⟩
  · unfold decode_balanced_distribution
    simp only [List.length_replicate, hcheck, ite_self, Nat.min_self]
    rw [hloop]
    dsimp only
    rw [hflush]
  · dsimp only
    rw [List.length_map, hpflen]
  · dsimp only
    intro a ha
    obtain ⟨cp, _, hcp⟩ := List.mem_map.mp ha
    rw [← hcp]
    rfl
  · dsimp only
    have hmapg : (flush_pairs s1.counts s1.puIdx t.get_number_of_cores).map
        (fun cp => some (t.get_pu_number (cp.1 + 0) cp.2)) =
        ((flush_pairs s1.counts s1.puIdx t.get_number_of_cores).map
          (fun cp => (t.corePus.take cp.1).sum + cp.2)).map some := by
      rw [List.map_map]
      rfl
    rw [hmapg]
    apply List.Nodup.map (Option.some_injective ℕ)
    have hsub : List.Sublist (flush_pairs s1.counts s1.puIdx t.get_number_of_cores)
        (pairsOf t.corePus) := by
      rw [hpairs]
      unfold pairsOf
      rw [show t.corePus.length = t.get_number_of_cores from rfl]
      apply flatMap_sublist
      intro c hc
      have hc' : c < t.get_number_of_cores := List.mem_range.mp hc
      apply List.Sublist.map
      unfold eligBelow
      refine (List.filter_sublist _).trans ?_
      rw [List.range_sublist]
      exact hcur1 c hc'
    have hsubmap := hsub.map (fun cp => (t.corePus.take cp.1).sum + cp.2)
    rw [pairsOf_map_pu_number] at hsubmap
    exact (List.nodup_range _).sublist hsubmap

/-! ### C7 infrastructure: the decoders never throw from a clean state -/

theorem check_num_threads_ok (upm : Bool) (pm : Finset ℕ) (t : Topology) (N : ℕ)
    (h : N ≤ usable_pus upm pm t) : check_num_threads upm pm t N = .ok () := by
  unfold usable_pus at h
  unfold check_num_threads
  cases upm
  · simp only [Bool.false_eq_true, if_false] at h ⊢
    rw [if_neg (by omega)]
  · simp only [if_true] at h ⊢
    rw [if_neg (by omega)]

theorem check_num_threads_err (upm : Bool) (pm : Finset ℕ) (t : Topology) (N : ℕ)
    (h : usable_pus upm pm t < N) :
    check_num_threads upm pm t N = .error .tooManyThreads := by
  unfold usable_pus at h
  unfold check_num_threads
  cases upm
  · simp only [Bool.false_eq_true, if_false] at h ⊢
    rw [if_pos (by omega)]
  · simp only [if_true] at h ⊢
    rw [if_pos (by omega)]

theorem parse_mappings_err (spec : String)
    (h1 : spec ≠ "compact") (h2 : spec ≠ "scatter") (h3 : spec ≠ "balanced")
    (h4 : spec ≠ "numa-balanced") :
    parse_mappings spec = .error .unrecognizedSpec := by
  unfold parse_mappings
  rw [if_neg h1, if_neg h2, if_neg h3, if_neg h4]

theorem flush_assign_no_throw (affPu pusPu : ℕ → ℕ → ℕ) :
    ∀ (pairs : List (ℕ × ℕ)) (s : AssignState),
      (∀ j, s.k ≤ j → s.affs.getD j none = none) →
      ∃ s', flush_assign affPu pusPu pairs s = .ok s' ∧
        (∀ j, s'.k ≤ j → s'.affs.getD j none = none) := by
  intro pairs
  induction pairs with
  | nil =>
      intro s hs
      exact ⟨s, rfl, hs⟩
  | cons cp rest ih =>
      intro s hs
      obtain ⟨c, p⟩ := cp
      unfold flush_assign
      rw [hs s.k le_rfl, if_neg (by simp)]
      refine ih _ ?_
      intro j hj
      dsimp only at hj ⊢
      rw [getD_set_ne _ _ _ (by omega : s.k ≠ j)]
      exact hs j (by omega)

theorem flush_assign_no_error (affPu pusPu : ℕ → ℕ → ℕ) (pairs : List (ℕ × ℕ))
    (N : ℕ) (pus : List ℕ) (e : AffError) :
    flush_assign affPu pusPu pairs ⟨List.replicate N none, pus, 0⟩ ≠ .error e := by
  intro h
  obtain ⟨s', hok, _⟩ := flush_assign_no_throw affPu pusPu pairs
    ⟨List.replicate N none, pus, 0⟩ (fun j _ => getD_replicate_none N j)
  rw [hok] at h
  exact absurd h (by simp)

theorem compact_pass_no_throw (t : Topology) (upm : Bool) (pm : Finset ℕ)
    (uc N : ℕ) :
    ∀ (pairs : List (ℕ × ℕ)) (s : AssignState),
      (∀ j, s.k ≤ j → s.affs.getD j none = none) →
      (match compact_pass t upm pm uc N pairs s with
       | .done s' => ∀ j, s'.k ≤ j → s'.affs.getD j none = none
       | .thrown _ => False
       | .cont s' => ∀ j, s'.k ≤ j → s'.affs.getD j none = none) := by
  intro pairs
  induction pairs with
  | nil =>
      intro s hs
      exact hs
  | cons cp rest ih =>
      intro s hs
      obtain ⟨c, p⟩ := cp
      unfold compact_pass
      by_cases helig : pu_in_process_mask upm pm t c p = true
      · rw [if_neg (not_not_intro helig)]
        rw [hs s.k le_rfl, if_neg (by simp)]
        dsimp only
        by_cases hdone : s.k + 1 = N
        · rw [if_pos hdone]
          intro j hj
          dsimp only at hj ⊢
          rw [getD_set_ne _ _ _ (by omega : s.k ≠ j)]
          exact hs j (by omega)
        · rw [if_neg hdone]
          refine ih _ ?_
          intro j hj
          dsimp only at hj ⊢
          rw [getD_set_ne _ _ _ (by omega : s.k ≠ j)]
          exact hs j (by omega)
      · rw [if_pos helig]
        exact ih _ hs

theorem compact_loop_no_error (t : Topology) (upm : Bool) (pm : Finset ℕ)
    (uc N : ℕ) (pairs : List (ℕ × ℕ)) :
    ∀ (fuel : ℕ) (s : AssignState),
      (∀ j, s.k ≤ j → s.affs.getD j none = none) →
      ∀ e, compact_loop t upm pm uc N pairs fuel s ≠ some (.error e) := by
  intro fuel
  induction fuel with
  | zero =>
      intro s _ e
      simp [compact_loop]
  | succ fuel ih =>
      intro s hs e
      unfold compact_loop
      by_cases hk : s.k < N
      · rw [if_pos hk]
        have hp := compact_pass_no_throw t upm pm uc N pairs s hs
        rcases hX : compact_pass t upm pm uc N pairs s with s' | e' | s'
        · rw [hX] at hp
          simp
        · rw [hX] at hp
          exact hp.elim
        · rw [hX] at hp
          exact ih s' hp e
      · rw [if_neg hk]
        simp

theorem scatter_pass_no_throw (t : Topology) (upm : Bool) (pm : Finset ℕ)
    (uc N : ℕ) :
    ∀ (cores : List ℕ) (s : SState),
      (∀ j, s.k ≤ j → s.affs.getD j none = none) →
      (match scatter_pass t upm pm uc N cores s with
       | .done s' => ∀ j, s'.k ≤ j → s'.affs.getD j none = none
       | .thrown _ => False
       | .cont s' => ∀ j, s'.k ≤ j → s'.affs.getD j none = none) := by
  intro cores
  induction cores with
  | nil =>
      intro s hs
      exact hs
  | cons c rest ih =>
      intro s hs
      unfold scatter_pass
      rw [hs s.k le_rfl, if_neg (by simp)]
      dsimp only
      by_cases hfound : (find_next_pu (fun p => pu_in_process_mask upm pm t c p)
          (s.cursors.getD c 0) (t.get_number_of_core_pus c)).2 = true
      · rw [if_neg (not_not_intro hfound)]
        by_cases hdone : s.k + 1 = N
        · rw [if_pos hdone]
          intro j hj
          dsimp only at hj ⊢
          rw [getD_set_ne _ _ _ (by omega : s.k ≠ j)]
          exact hs j (by omega)
        · rw [if_neg hdone]
          refine ih _ ?_
          intro j hj
          dsimp only at hj ⊢
          rw [getD_set_ne _ _ _ (by omega : s.k ≠ j)]
          exact hs j (by omega)
      · rw [if_pos hfound]
        exact ih _ hs

theorem scatter_loop_no_error (t : Topology) (upm : Bool) (pm : Finset ℕ)
    (uc N : ℕ) (cores : List ℕ) :
    ∀ (fuel : ℕ) (s : SState),
      (∀ j, s.k ≤ j → s.affs.getD j none = none) →
      ∀ e, scatter_loop t upm pm uc N cores fuel s ≠ some (.error e) := by
  intro fuel
  induction fuel with
  | zero =>
      intro s _ e
      simp [scatter_loop]
  | succ fuel ih =>
      intro s hs e
      unfold scatter_loop
      by_cases hk : s.k < N
      · rw [if_pos hk]
        have hp := scatter_pass_no_throw t upm pm uc N cores s hs
        rcases hX : scatter_pass t upm pm uc N cores s with s' | e' | s'
        · rw [hX] at hp
          simp
        · rw [hX] at hp
          exact hp.elim
        · rw [hX] at hp
          exact ih s' hp e
      · rw [if_neg hk]
        simp

theorem numa_sockets_no_error (t : Topology) (upm : Bool) (pm : Finset ℕ) (uc : ℕ) :
    ∀ (socks : List (ℕ × ℕ)) (off : ℕ) (s : AssignState),
      (∀ j, s.k ≤ j → s.affs.getD j none = none) →
      ∀ e, numa_sockets_loop t upm pm uc socks off s ≠ some (.error e) := by
  intro socks
  induction socks with
  | nil =>
      intro off s _ e
      simp [numa_sockets_loop]
  | cons sk rest ih =>
      intro off s hs e
      obtain ⟨ncores, Nsock⟩ := sk
      unfold numa_sockets_loop numa_socket_step
      dsimp only
      rcases hX : prepass_loop (fun c => t.get_number_of_core_pus c)
          (fun c p => pu_in_process_mask upm pm t (c + off) p) Nsock
          (List.range ncores) (Nsock + 1)
          ⟨List.replicate ncores 0, List.replicate ncores [],
           List.replicate ncores 0, 0⟩ with _ | s1
      · simp
      · dsimp only
        obtain ⟨s2, hfl, hs2⟩ := flush_assign_no_throw
          (fun c p => t.get_pu_number (c + uc + off) p)
          (fun c p => t.get_pu_number (c + uc) p)
          (flush_pairs s1.counts s1.puIdx ncores) s hs
        rw [hfl]
        dsimp only
        exact ih (off + ncores) s2 hs2 e

theorem decode_compact_no_error (t : Topology) (upm : Bool) (pm : Finset ℕ)
    (uc mc N : ℕ) (pus0 : List ℕ) (hle : N ≤ usable_pus upm pm t) :
    ∀ e, decode_compact_distribution t upm pm uc mc (List.replicate N none) pus0 ≠
      some (.error e) := by
  intro e hpe
  unfold decode_compact_distribution at hpe
  simp only [List.length_replicate, check_num_threads_ok upm pm t N hle] at hpe
  refine compact_loop_no_error t upm pm _ _ _ _ _ ?_ e hpe
  exact fun j _ => getD_replicate_none N j

theorem decode_scatter_no_error (t : Topology) (upm : Bool) (pm : Finset ℕ)
    (uc mc N : ℕ) (pus0 : List ℕ) (hle : N ≤ usable_pus upm pm t) :
    ∀ e, decode_scatter_distribution t upm pm uc mc (List.replicate N none) pus0 ≠
      some (.error e) := by
  intro e hpe
  unfold decode_scatter_distribution at hpe
  simp only [List.length_replicate, check_num_threads_ok upm pm t N hle] at hpe
  refine scatter_loop_no_error t upm pm _ _ _ _ _ ?_ e hpe
  exact fun j _ => getD_replicate_none N j

theorem decode_balanced_no_error (t : Topology) (upm : Bool) (pm : Finset ℕ)
    (uc mc N : ℕ) (pus0 : List ℕ) (hle : N ≤ usable_pus upm pm t) :
    ∀ e, decode_balanced_distribution t upm pm uc mc (List.replicate N none) pus0 ≠
      some (.error e) := by
  intro e hpe
  unfold decode_balanced_distribution at hpe
  simp only [List.length_replicate, check_num_threads_ok upm pm t N hle] at hpe
  split at hpe
  · simp at hpe
  · split at hpe
    · rename_i e' heq
      exact flush_assign_no_error _ _ _ _ _ _ heq
    · simp at hpe

theorem decode_numabalanced_no_error (t : Topology) (upm : Bool) (pm : Finset ℕ)
    (uc N : ℕ) (pus0 : List ℕ) (hle : N ≤ usable_pus upm pm t) :
    ∀ e, decode_numabalanced_distribution t upm pm uc (List.replicate N none) pus0 ≠
      some (.error e) := by
  intro e hpe
  unfold decode_numabalanced_distribution at hpe
  simp only [List.length_replicate, check_num_threads_ok upm pm t N hle] at hpe
  refine numa_sockets_no_error t upm pm _ _ _ _ ?_ e hpe
  exact fun j _ => getD_replicate_none N j

/-! ### C2: affinity completeness and disjointness -/

theorem listResize_replicate_self (N : ℕ) :
    listResize (List.replicate N (none : Option ℕ)) N none = List.replicate N none := by
  unfold listResize
  rw [List.take_replicate, Nat.min_self, List.length_replicate, Nat.sub_self]
  simp

/-- **C2** (amended: the original claim also covered `numa-balanced`, but that
decoder can leave threads unassigned even when `num_threads ≤` the usable PU
count — see the counterexample theorem).  For the `compact`, `scatter` and
`balanced` policy names and any `num_threads` not exceeding the number of
usable processing units, `parse_affinity_options` produces exactly
`num_threads` affinity masks, each covering exactly one processing unit
(every mask is a `some`, i.e. a singleton PU mask), and no two returned masks
cover the same processing unit (the mask list has no duplicates). -/
theorem parse_affinity_completeness_disjointness
    (spec : String) (t : Topology) (upm : Bool) (pm : Finset ℕ) (N : ℕ)
    (pus0 : List ℕ)
    (hspec : spec = "compact" ∨ spec = "scatter" ∨ spec = "balanced")
    (hpm : upm = true → ∀ x ∈ pm, x < t.hardware_concurrency)
    (hN : N ≤ usable_pus upm pm t) :
    ∃ s', parse_affinity_options spec (List.replicate N none) 0
        t.get_number_of_cores N pus0 upm pm t = some (.ok s') ∧
      s'.affs.length = N ∧ (∀ a ∈ s'.affs, a.isSome = true) ∧ s'.affs.Nodup := by
  rcases hspec with h | h | h
  · subst h
    obtain ⟨affs, pus', hdec, hlen, hsome, hnd⟩ :=
      decode_compact_ok t upm pm N pus0 hpm hN
    refine ⟨⟨affs, pus', N⟩, ?_, hlen, hsome, hnd⟩
    have hm : parse_mappings "compact" = .ok .compact := by rfl
    unfold parse_affinity_options
    rw [hm]
    unfold decode_distribution
    dsimp only
    rw [listResize_replicate_self]
    exact hdec
  · subst h
    obtain ⟨s', hdec, hlen, hsome, hnd⟩ :=
      decode_scatter_ok t upm pm N pus0 hpm hN
    refine ⟨⟨s'.affs, s'.pus, s'.k⟩, ?_, hlen, hsome, hnd⟩
    have hm : parse_mappings "scatter" = .ok .scatter := by rfl
    unfold parse_affinity_options
    rw [hm]
    unfold decode_distribution
    dsimp only
    rw [listResize_replicate_self, hdec]
  · subst h
    obtain ⟨s', hdec, hlen, hsome, hnd⟩ :=
      decode_balanced_ok t upm pm N pus0 hpm hN
    refine ⟨s', ?_, hlen, hsome, hnd⟩
    have hm : parse_mappings "balanced" = .ok .balanced := by rfl
    unfold parse_affinity_options
    rw [hm]
    unfold decode_distribution
    dsimp only
    rw [listResize_replicate_self]
    exact hdec

/-- **C2** witness: the amended theorem applied to the compact policy on a
one-core machine with two PUs and two requested threads. -/
theorem parse_affinity_completeness_disjointness_witness :
    (2 ≤ usable_pus false ∅ (⟨[[2]]⟩ : Topology)) ∧
    ∃ s', parse_affinity_options "compact" (List.replicate 2 none) 0
        (⟨[[2]]⟩ : Topology).get_number_of_cores 2 [] false ∅ ⟨[[2]]⟩ =
        some (.ok s') ∧
      s'.affs.length = 2 ∧ (∀ a ∈ s'.affs, a.isSome = true) ∧ s'.affs.Nodup :=
  ⟨by decide,
   parse_affinity_completeness_disjointness "compact" ⟨[[2]]⟩ false ∅ 2 []
     (Or.inl rfl) (fun h => by cases h) (by decide)⟩

/-- **C2** counterexample: on a machine with three single-PU sockets (one
core per socket), `parse_affinity_options` with the recognized policy name
`numa-balanced` and `num_threads = 1 ≤ 3` usable PUs succeeds but returns the
single mask still empty (`none`): per-socket rounding computes
`round(1·1/3) = 0` threads for every socket, so no mask covers any processing
unit, contradicting the claim for the `numa-balanced` policy. -/
theorem parse_affinity_numa_counterexample :
    1 ≤ usable_pus false ∅ (⟨[[1], [1], [1]]⟩ : Topology) ∧
    parse_affinity_options "numa-balanced" (List.replicate 1 none) 0
        (⟨[[1], [1], [1]]⟩ : Topology).get_number_of_cores 1 [] false ∅
        ⟨[[1], [1], [1]]⟩ =
      some (.ok ⟨[none], [0], 0⟩) :=
  ⟨by decide, by rfl⟩

/-! ### C7: the two caller-triggerable error situations -/

/-- **C7**: `parse_affinity_options` fails with an `InvalidInput` error in
exactly two caller-triggerable situations: when `spec` is not one of the four
recognized policy names (`compact`, `scatter`, `balanced`, `numa-balanced`),
and when `num_threads` exceeds the number of usable processing units (the
bits of the process mask when `use_process_mask` is set, else all hardware
processing units); and (modelled from the spec, as the throwing macro's
definition is outside this excerpt) when an explicit error-code output
parameter is supplied the failure is reported through it, otherwise it is
raised as a terminating error. -/
theorem parse_affinity_error_conditions
    (spec : String) (t : Topology) (upm : Bool) (pm : Finset ℕ)
    (N used_cores max_cores : ℕ) (pus0 : List ℕ) :
    ((∃ e, parse_affinity_options spec (List.replicate N none) used_cores
        max_cores N pus0 upm pm t = some (.error e)) ↔
      ((spec ≠ "compact" ∧ spec ≠ "scatter" ∧ spec ≠ "balanced" ∧
        spec ≠ "numa-balanced") ∨ usable_pus upm pm t < N)) ∧
    (∀ e, report_failure true e = .viaErrorCode e) ∧
    (∀ e, report_failure false e = .raisedException e) := by
  refine ⟨⟨?_, ?_⟩, fun e => rfl, fun e => rfl⟩
  · intro hE
    by_cases hlt : usable_pus upm pm t < N
    · exact Or.inr hlt
    · left
      have hle : N ≤ usable_pus upm pm t := by omega
      obtain ⟨e, hpe⟩ := hE
      refine ⟨?_, ?_, ?_, ?_⟩ <;> intro hsp <;> subst hsp
      · unfold parse_affinity_options at hpe
        rw [show parse_mappings "compact" = .ok .compact from rfl] at hpe
        unfold decode_distribution at hpe
        dsimp only at hpe
        rw [listResize_replicate_self] at hpe
        exact decode_compact_no_error t upm pm used_cores max_cores N pus0 hle e hpe
      · unfold parse_affinity_options at hpe
        rw [show parse_mappings "scatter" = .ok .scatter from rfl] at hpe
        unfold decode_distribution at hpe
        dsimp only at hpe
        rw [listResize_replicate_self] at hpe
        split at hpe
        · simp at hpe
        · rename_i e' heq
          exact decode_scatter_no_error t upm pm used_cores max_cores N pus0 hle e' heq
        · simp at hpe
      · unfold parse_affinity_options at hpe
        rw [show parse_mappings "balanced" = .ok .balanced from rfl] at hpe
        unfold decode_distribution at hpe
        dsimp only at hpe
        rw [listResize_replicate_self] at hpe
        exact decode_balanced_no_error t upm pm used_cores max_cores N pus0 hle e hpe
      · unfold parse_affinity_options at hpe
        rw [show parse_mappings "numa-balanced" = .ok .numa_balanced from rfl] at hpe
        unfold decode_distribution at hpe
        dsimp only at hpe
        rw [listResize_replicate_self] at hpe
        exact decode_numabalanced_no_error t upm pm used_cores N pus0 hle e hpe
  · intro h
    rcases h with ⟨h1, h2, h3, h4⟩ | hlt
    · refine ⟨.unrecognizedSpec, ?_⟩
      unfold parse_affinity_options
      rw [parse_mappings_err spec h1 h2 h3 h4]
    · by_cases h1 : spec = "compact"
      · subst h1
        refine ⟨.tooManyThreads, ?_⟩
        unfold parse_affinity_options
        rw [show parse_mappings "compact" = .ok .compact from rfl]
        unfold decode_distribution
        dsimp only
        rw [listResize_replicate_self]
        unfold decode_compact_distribution
        simp only [List.length_replicate, check_num_threads_err upm pm t N hlt]
      · by_cases h2 : spec = "scatter"
        · subst h2
          refine ⟨.tooManyThreads, ?_⟩
          unfold parse_affinity_options
          rw [show parse_mappings "scatter" = .ok .scatter from rfl]
          unfold decode_distribution
          dsimp only
          rw [listResize_replicate_self]
          unfold decode_scatter_distribution
          simp only [List.length_replicate, check_num_threads_err upm pm t N hlt]
        · by_cases h3 : spec = "balanced"
          · subst h3
            refine ⟨.tooManyThreads, ?_⟩
            unfold parse_affinity_options
            rw [show parse_mappings "balanced" = .ok .balanced from rfl]
            unfold decode_distribution
            dsimp only
            rw [listResize_replicate_self]
            unfold decode_balanced_distribution
            simp only [List.length_replicate, check_num_threads_err upm pm t N hlt]
          · by_cases h4 : spec = "numa-balanced"
            · subst h4
              refine ⟨.tooManyThreads, ?_⟩
              unfold parse_affinity_options
              rw [show parse_mappings "numa-balanced" = .ok .numa_balanced from rfl]
              unfold decode_distribution
              dsimp only
              rw [listResize_replicate_self]
              unfold decode_numabalanced_distribution
              simp only [List.length_replicate, check_num_threads_err upm pm t N hlt]
            · refine ⟨.unrecognizedSpec, ?_⟩
              unfold parse_affinity_options
              rw [parse_mappings_err spec h1 h2 h3 h4]

/-! ### C6: Khatri-Rao common-dimension check precedes allocation -/

theorem common_dims_check_error_of_ne :
    ∀ (aC bC : List ℕ) (i : ℕ), aC.length = bC.length → aC ≠ bC →
      ∃ j, common_dims_check i aC bC = .error (.commonDimMismatch (i + j)) ∧
        aC.getD j 0 ≠ bC.getD j 0 ∧ j < aC.length := by
  intro aC
  induction aC with
  | nil =>
      intro bC i hlen hne
      cases bC with
      | nil => exact absurd rfl hne
      | cons b bs => simp at hlen
  | cons a as_ ih =>
      intro bC i hlen hne
      cases bC with
      | nil => simp at hlen
      | cons b bs =>
          by_cases hab : a = b
          · subst hab
            have hne' : as_ ≠ bs := fun h => hne (by rw [h])
            obtain ⟨j, hj1, hj2, hj3⟩ := ih bs (i + 1) (by simpa using hlen) hne'
            refine ⟨j + 1, ?_, by simpa using hj2, by simpa using hj3⟩
            have hstep : common_dims_check i (a :: as_) (a :: bs) =
                common_dims_check (i + 1) as_ bs := by
              simp [common_dims_check]
            have harith : i + (j + 1) = i + 1 + j := by omega
            rw [hstep, harith]
            exact hj1
          · exact ⟨0, by simp [common_dims_check, hab], by simpa using hab,
              by simp⟩

/-- C6: when the declared common indices of A and B have differing extents,
`khatri_rao` fails with the common-dimension-mismatch error naming the first
offending common index, and no result tensor is allocated (the allocation
counter stays 0) — the check runs before the result is constructed. -/
theorem khatri_rao_mismatch_no_alloc (aOnly bOnly aC bC : List ℕ)
    (hlen : aC.length = bC.length) (hne : aC ≠ bC) :
    ∃ i, khatri_rao aOnly bOnly aC bC = (.error (.commonDimMismatch i), 0) ∧
      aC.getD i 0 ≠ bC.getD i 0 ∧ i < aC.length := by
  obtain ⟨j, hj1, hj2, hj3⟩ := common_dims_check_error_of_ne aC bC 0 hlen hne
  refine ⟨j, ?_, hj2, hj3⟩
  unfold khatri_rao
  rw [show (0 + j) = j from Nat.zero_add j] at hj1
  rw [hj1]

/-- Witness for `khatri_rao_mismatch_no_alloc` with common extents 3 vs 4. -/
theorem khatri_rao_mismatch_no_alloc_witness :
    ([3] : List ℕ).length = ([4] : List ℕ).length ∧ ([3] : List ℕ) ≠ [4] ∧
    ∃ i, khatri_rao [5] [7] [3] [4] = (.error (.commonDimMismatch i), 0) ∧
      ([3] : List ℕ).getD i 0 ≠ ([4] : List ℕ).getD i 0 ∧ i < ([3] : List ℕ).length :=
  ⟨rfl, by decide, khatri_rao_mismatch_no_alloc [5] [7] [3] [4] rfl (by decide)⟩

end Einsums
